import Mathlib

/-!
Verification of the hcr-prober candidate-generation, filtering, specificity
screening, spatial-diversity selection and isoform-analysis pipeline.

Conventions of the shallow embedding:
* Nucleotide sequences are `List Char`; Python string slicing `s[i:i+w]`
  becomes `(s.drop i).take w`.
* Python floats are modelled as exact rationals `ℚ` (the float literal `0.8`
  is modelled as `4/5`, `int()` casts as `Int.floor`).
* Python's stable `sorted(..., key=k)` is modelled by `List.insertionSort`
  with the relation `k a ≤ k b`, which is a stable sort.
* Python `range(a)` with a possibly negative bound `n - w + 1` becomes
  `List.range (n + 1 - w)` over `ℕ`, which is empty in exactly the same cases.
* Python dicts that gain keys through the pipeline (window candidates) are
  modelled as records whose annotation fields hold a default value until the
  annotating stage fills them; the identity of a candidate is carried by its
  immutable fields `(window_sequence, start_pos_rev)`.
* External collaborators (BLAST, Biopython alignment, melting temperature)
  are modelled as explicit inputs: the parsed hit table is an argument, the
  melting-temperature collaborator is a function field of the configuration.
-/

/-- Model of Biopython's nucleotide complement table used by
`Seq.reverse_complement`: IUPAC letters are complemented (case preserved),
any other character is left unchanged. -/
def complement_char (c : Char) : Char :=
  match c with
  | 'A' => 'T' | 'T' => 'A' | 'C' => 'G' | 'G' => 'C'
  | 'a' => 't' | 't' => 'a' | 'c' => 'g' | 'g' => 'c'
  | 'R' => 'Y' | 'Y' => 'R' | 'K' => 'M' | 'M' => 'K'
  | 'r' => 'y' | 'y' => 'r' | 'k' => 'm' | 'm' => 'k'
  | 'B' => 'V' | 'V' => 'B' | 'D' => 'H' | 'H' => 'D'
  | 'b' => 'v' | 'v' => 'b' | 'd' => 'h' | 'h' => 'd'
  | other => other

/-- `sequence_utils.reverse_complement`: reverse complement of a sequence. -/
def reverse_complement (seq : List Char) : List Char :=
  (seq.map complement_char).reverse

/-- Checks that the next `n` characters all equal `c` up to ASCII case,
modelling the case-insensitive backreference `\1{m,}` of the homopolymer
regular expression. -/
def hom_run (c : Char) : ℕ → List Char → Bool
  | 0, _ => true
  | _ + 1, [] => false
  | n + 1, d :: rest => (d.toUpper = c.toUpper) && hom_run c n rest

/-- Membership in the character class `[ACGT]` under `re.IGNORECASE`. -/
def is_acgt (c : Char) : Bool :=
  c.toUpper = 'A' || c.toUpper = 'C' || c.toUpper = 'G' || c.toUpper = 'T'

/-- `sequence_utils.has_homopolymer`: `re.search('([ACGT])\\1{max_len,}', s,
re.IGNORECASE) is not None`, i.e. some position starts a case-insensitive run
of `max_len + 1` (or more) equal `[ACGT]` characters. -/
def has_homopolymer : List Char → ℕ → Bool
  | [], _ => false
  | c :: rest, max_len => (is_acgt c && hom_run c max_len rest) || has_homopolymer rest max_len

/-- `thermo_utils.calculate_gc_content`: percentage of G/C characters after
upper-casing; an empty sequence yields `0.0`. -/
def calculate_gc_content (s : List Char) : ℚ :=
  if s = [] then 0
  else (((s.map Char.toUpper).count 'G' + (s.map Char.toUpper).count 'C' : ℕ) : ℚ) / s.length * 100

/-- Window candidate record built by the generator (`prober.py` line 12); the
annotation fields `probe_up_target`, `probe_dn_target`, `tm_dn`, `tm_up` are
added in place by later funnel stages and hold defaults until then. -/
structure Window where
  window_sequence : List Char
  start_pos_rev : ℕ
  probe_up_target : List Char := []
  probe_dn_target : List Char := []
  tm_dn : ℚ := 0
  tm_up : ℚ := 0
deriving DecidableEq

/-- Identity of a window candidate: the fields created by the generator and
never modified by any funnel stage (the Python stages mutate the same dict
objects; in the functional model the immutable fields track that identity). -/
def window_key (w : Window) : List Char × ℕ :=
  (w.window_sequence, w.start_pos_rev)

/-- Formatted candidate (`prober.format_probes_for_blast`). -/
structure FormattedProbe where
  pair_id : String
  probe_up_target : List Char
  probe_dn_target : List Char
  start_pos_on_sense : ℤ
  start_pos_rev : ℕ
deriving DecidableEq

instance : Inhabited FormattedProbe := ⟨⟨"", [], [], 0, 0⟩⟩

/-- One parsed row of the BLAST tabular output (`blast_wrapper.py` line 49);
numeric columns are modelled as exact rationals. -/
structure Hit where
  pair_id : String
  hit_id : String
  pident : ℚ
  length : ℚ
  mismatch : ℚ
  gapopen : ℚ
  qstart : ℚ
  qend : ℚ
  sstart : ℚ
  send : ℚ
  evalue : ℚ
  bitscore : ℚ
deriving DecidableEq

/-- Configuration object threaded through the pipeline (the `args` namespace
of `main.add_shared_design_args`).  Count-like parameters are modelled as `ℕ`
(they are non-negative in every invocation), score thresholds as `ℚ`.
`mask_regions` holds the pre-parsed intervals (`None` models an absent
option), `mask_sequences` the pre-loaded masking sequences, and `calc_tm` is
the external melting-temperature collaborator (`thermo_utils.calculate_tm`). -/
structure DesignArgs where
  window_size : ℕ
  probe_len : ℕ
  spacer_len : ℕ
  skip_5prime : ℕ
  min_probe_distance : ℕ
  max_homopolymer : ℕ
  min_gc : ℚ
  max_gc : ℚ
  max_gc_diff : ℚ
  min_tm : ℚ
  max_tm : ℚ
  calc_tm : List Char → ℚ
  mask_regions : Option (List (ℤ × ℤ))
  mask_sequences : Option (List (List Char))
  blast_ref : Bool
  min_bitscore : ℚ
  max_evalue : ℚ
  positive_selection_strategy : String
  target_transcript_id : String

/-- `prober.generate_thermo_candidates` line 12: all windows of
`rev_comp_seq`, one per start offset in `range(len(rev_comp_seq) -
window_size + 1)`. -/
def initial_windows (seq : List Char) (args : DesignArgs) : List Window :=
  let rc := reverse_complement seq
  (List.range (rc.length + 1 - args.window_size)).map
    (fun i => { window_sequence := (rc.drop i).take args.window_size, start_pos_rev := i })

/-- C2 counterexample input: the degenerate configuration with
`window_size = 0`. -/
def c2_args : DesignArgs :=
  { window_size := 0, probe_len := 25, spacer_len := 2, skip_5prime := 100,
    min_probe_distance := 2, max_homopolymer := 4, min_gc := 40, max_gc := 60,
    max_gc_diff := 15, min_tm := 40, max_tm := 55, calc_tm := fun _ => 0,
    mask_regions := none, mask_sequences := none, blast_ref := false,
    min_bitscore := 75, max_evalue := 1, positive_selection_strategy := "any-strong-hit",
    target_transcript_id := "" }

/-- C2, counterexample: the claim also asserts that an empty input sequence
always yields an empty candidate list, but with `window_size = 0` the
generator iterates over `range(0 - 0 + 1)` and emits one (empty) window for
the empty sequence. -/
theorem c2_counterexample :
    ([] : List Char) = [] ∧ initial_windows [] c2_args ≠ [] := by
  constructor
  · rfl
  · decide

/-- C2 (amended): for `window_size ≤ len(seq)` the generator emits exactly
`len(reverse_complement(seq)) - window_size + 1` windows whose
`start_pos_rev` values are `0, 1, ..., len - window_size` in increasing
order; and if the sequence is empty with `window_size ≥ 1`, or `window_size >
len(seq)`, the generator emits no window at all. -/
theorem c2_generator_counts (seq : List Char) (args : DesignArgs)
    (hw : args.window_size ≤ seq.length) :
    (initial_windows seq args).length = (reverse_complement seq).length - args.window_size + 1
    ∧ (initial_windows seq args).map Window.start_pos_rev
        = List.range (seq.length - args.window_size + 1)
    ∧ (∀ args' : DesignArgs, ∀ s : List Char,
        (s = [] ∧ 1 ≤ args'.window_size) ∨ s.length < args'.window_size →
        initial_windows s args' = []) := by
  have hrc : ∀ t : List Char, (reverse_complement t).length = t.length := by
    intro t; simp [reverse_complement]
  refine ⟨?_, ?_, ?_⟩
  · simp only [initial_windows, List.length_map, List.length_range, hrc]
    omega
  · simp only [initial_windows, List.map_map, hrc]
    have : (seq.length + 1 - args.window_size) = seq.length - args.window_size + 1 := by omega
    rw [this]
    exact List.map_id _
  · intro args' s h
    have hlen : s.length + 1 - args'.window_size = 0 := by
      rcases h with ⟨rfl, h1⟩ | h2
      · simp; omega
      · omega
    simp [initial_windows, hrc, hlen]

/-- C10: a window containing no `[ACGTacgt]` character (for example a run of
`N`s) can never match the homopolymer pattern, for any `max_homopolymer`
threshold, so the homopolymer conjunct of the thermodynamic filter never
rejects such a window. -/
theorem c10_no_acgt_no_homopolymer (s : List Char)
    (h : ∀ c ∈ s, is_acgt c = false) (m : ℕ) :
    has_homopolymer s m = false := by
  induction s with
  | nil => rfl
  | cons c rest ih =>
      have hc : is_acgt c = false := h c (by simp)
      have hrest : has_homopolymer rest m = false :=
        ih (fun d hd => h d (by simp [hd]))
      simp [has_homopolymer, hc, hrest]

/-- C10 witness input: a window of ten `N`s. -/
def c10_window : List Char := List.replicate 10 'N'

theorem c10_witness :
    (∀ c ∈ c10_window, is_acgt c = false) ∧ has_homopolymer c10_window 4 = false := by
  refine ⟨by decide, c10_no_acgt_no_homopolymer c10_window (by decide) 4⟩


/-- C2 witness input: a four-nucleotide sequence with `window_size = 2`. -/
def c2w_args : DesignArgs := { c2_args with window_size := 2 }

theorem c2_generator_counts_witness :
    c2w_args.window_size ≤ (['A', 'C', 'G', 'T'] : List Char).length
    ∧ ((initial_windows ['A', 'C', 'G', 'T'] c2w_args).length
          = (reverse_complement ['A', 'C', 'G', 'T']).length - c2w_args.window_size + 1
      ∧ (initial_windows ['A', 'C', 'G', 'T'] c2w_args).map Window.start_pos_rev
          = List.range ((['A', 'C', 'G', 'T'] : List Char).length - c2w_args.window_size + 1)
      ∧ (∀ args' : DesignArgs, ∀ s : List Char,
          (s = [] ∧ 1 ≤ args'.window_size) ∨ s.length < args'.window_size →
          initial_windows s args' = [])) :=
  ⟨by decide, c2_generator_counts ['A', 'C', 'G', 'T'] c2w_args (by decide)⟩

/-- Merging loop of `isoform_analyzer.merge_intervals` (lines 19-25): fold
over the start-sorted tail, extending the last accumulated interval whenever
the next interval starts at or before its end. -/
def merge_go : ℤ × ℤ → List (ℤ × ℤ) → List (ℤ × ℤ)
  | last, [] => [last]
  | last, cur :: rest =>
    if cur.1 ≤ last.2 then merge_go (last.1, max last.2 cur.2) rest
    else last :: merge_go cur rest

/-- `isoform_analyzer.merge_intervals`: sort by interval start (stable), then
fold overlapping or touching intervals into maximal spans. -/
def merge_intervals (intervals : List (ℤ × ℤ)) : List (ℤ × ℤ) :=
  match List.insertionSort (fun a b : ℤ × ℤ => a.1 ≤ b.1) intervals with
  | [] => []
  | x :: rest => merge_go x rest

/-- Main loop of `isoform_analyzer.invert_intervals` (lines 30-35): walk the
merged mask emitting the gaps, then the final piece up to `L`. -/
def invert_go (L : ℤ) : ℤ → List (ℤ × ℤ) → List (ℤ × ℤ)
  | cur, [] => if cur < L then [(cur, L)] else []
  | cur, iv :: rest => (if cur < iv.1 then [(cur, iv.1)] else []) ++ invert_go L (max cur iv.2) rest

/-- `isoform_analyzer.invert_intervals`: complement of a masked interval set
over `[0, L)`; an empty mask returns the single interval `(0, L)`. -/
def invert_intervals (L : ℤ) (mask : List (ℤ × ℤ)) : List (ℤ × ℤ) :=
  if mask = [] then [(0, L)] else invert_go L 0 (merge_intervals mask)

/-- C9: an empty mask list short-circuits to `[(0, L)]`; in particular total
length `0` yields the degenerate interval `(0, 0)`, not an empty list. -/
theorem c9_invert_empty_mask (L : ℤ) (h : 0 ≤ L) :
    invert_intervals L [] = [(0, L)]
    ∧ invert_intervals 0 [] = [(0, 0)] ∧ invert_intervals 0 [] ≠ [] := by
  refine ⟨rfl, rfl, by decide⟩

theorem c9_invert_empty_mask_witness :
    (0 : ℤ) ≤ 7
    ∧ (invert_intervals 7 [] = [(0, 7)]
        ∧ invert_intervals 0 [] = [(0, 0)] ∧ invert_intervals 0 [] ≠ []) :=
  ⟨by decide, c9_invert_empty_mask 7 (by decide)⟩

/-- Point-wise coverage semantics of an interval list (each pair is a
half-open interval). -/
def covers (l : List (ℤ × ℤ)) (x : ℤ) : Prop :=
  ∃ iv ∈ l, iv.1 ≤ x ∧ x < iv.2

/-- Normal form of an interval list: non-empty intervals, pairwise in strictly
increasing, non-touching order. -/
def Normalized (l : List (ℤ × ℤ)) : Prop :=
  l.Pairwise (fun a b => a.2 < b.1) ∧ ∀ iv ∈ l, iv.1 < iv.2

theorem covers_nil (x : ℤ) : ¬ covers [] x := by
  rintro ⟨iv, h, -⟩; exact absurd h (List.not_mem_nil iv)

theorem covers_cons {a : ℤ × ℤ} {l : List (ℤ × ℤ)} {x : ℤ} :
    covers (a :: l) x ↔ (a.1 ≤ x ∧ x < a.2) ∨ covers l x := by
  constructor
  · rintro ⟨iv, hm, hx⟩
    rcases List.mem_cons.mp hm with rfl | hm
    · exact Or.inl hx
    · exact Or.inr ⟨iv, hm, hx⟩
  · rintro (hx | ⟨iv, hm, hx⟩)
    · exact ⟨a, List.mem_cons_self a l, hx⟩
    · exact ⟨iv, List.mem_cons_of_mem a hm, hx⟩

theorem covers_append {l₁ l₂ : List (ℤ × ℤ)} {x : ℤ} :
    covers (l₁ ++ l₂) x ↔ covers l₁ x ∨ covers l₂ x := by
  constructor
  · rintro ⟨iv, hm, hx⟩
    rcases List.mem_append.mp hm with hm | hm
    · exact Or.inl ⟨iv, hm, hx⟩
    · exact Or.inr ⟨iv, hm, hx⟩
  · rintro (⟨iv, hm, hx⟩ | ⟨iv, hm, hx⟩)
    · exact ⟨iv, List.mem_append.mpr (Or.inl hm), hx⟩
    · exact ⟨iv, List.mem_append.mpr (Or.inr hm), hx⟩

theorem covers_perm {l l' : List (ℤ × ℤ)} (h : l.Perm l') (x : ℤ) :
    covers l x ↔ covers l' x := by
  constructor
  · rintro ⟨iv, hm, hx⟩; exact ⟨iv, h.mem_iff.mp hm, hx⟩
  · rintro ⟨iv, hm, hx⟩; exact ⟨iv, h.mem_iff.mpr hm, hx⟩

instance : IsTotal (ℤ × ℤ) (fun a b => a.1 ≤ b.1) := ⟨fun a b => le_total a.1 b.1⟩

instance : IsTrans (ℤ × ℤ) (fun a b => a.1 ≤ b.1) := ⟨fun _ _ _ h1 h2 => le_trans h1 h2⟩

theorem merge_go_ne_nil (c : ℤ × ℤ) (r : List (ℤ × ℤ)) : merge_go c r ≠ [] := by
  induction r generalizing c with
  | nil => simp [merge_go]
  | cons cur rest ih =>
      by_cases h : cur.1 ≤ c.2 <;> simp [merge_go, h, ih]

theorem merge_go_mem_ends (c : ℤ × ℤ) (r : List (ℤ × ℤ)) :
    ∀ p ∈ merge_go c r, (∃ q ∈ c :: r, p.1 = q.1) ∧ (∃ q ∈ c :: r, p.2 = q.2) := by
  induction r generalizing c with
  | nil =>
      intro p hp
      simp only [merge_go, List.mem_singleton] at hp
      subst hp
      exact ⟨⟨p, by simp⟩, ⟨p, by simp⟩⟩
  | cons cur rest ih =>
      intro p hp
      by_cases h : cur.1 ≤ c.2
      · simp only [merge_go, if_pos h] at hp
        obtain ⟨⟨q, hq, h1⟩, ⟨q', hq', h2⟩⟩ := ih _ p hp
        constructor
        · rcases List.mem_cons.mp hq with rfl | hq
          · exact ⟨c, by simp, h1⟩
          · exact ⟨q, by simp [hq], h1⟩
        · rcases List.mem_cons.mp hq' with rfl | hq'
          · rcases max_cases c.2 cur.2 with ⟨he, -⟩ | ⟨he, -⟩
            · exact ⟨c, by simp, by rw [h2]; exact he⟩
            · exact ⟨cur, by simp, by rw [h2]; exact he⟩
          · exact ⟨q', by simp [hq'], h2⟩
      · simp only [merge_go, if_neg h, List.mem_cons] at hp
        rcases hp with rfl | hp
        · exact ⟨⟨p, by simp⟩, ⟨p, by simp⟩⟩
        · obtain ⟨⟨q, hq, h1⟩, ⟨q', hq', h2⟩⟩ := ih _ p hp
          exact ⟨⟨q, by simp [List.mem_cons.mp hq], h1⟩,
                 ⟨q', by simp [List.mem_cons.mp hq'], h2⟩⟩

theorem merge_go_covers (c : ℤ × ℤ) (r : List (ℤ × ℤ))
    (hs : (c :: r).Pairwise (fun a b => a.1 ≤ b.1)) (x : ℤ) :
    covers (merge_go c r) x ↔ covers (c :: r) x := by
  induction r generalizing c with
  | nil => simp [merge_go]
  | cons cur rest ih =>
      rcases List.pairwise_cons.mp hs with ⟨hc, hs'⟩
      rcases List.pairwise_cons.mp hs' with ⟨hcur, hrest⟩
      by_cases h : cur.1 ≤ c.2
      · rw [merge_go, if_pos h]
        have hsm : (((c.1, max c.2 cur.2)) :: rest).Pairwise
            (fun a b : ℤ × ℤ => a.1 ≤ b.1) := by
          refine List.pairwise_cons.mpr ⟨?_, hrest⟩
          intro b hb
          exact hc b (List.mem_cons_of_mem cur hb)
        rw [ih _ hsm]
        have hcc : c.1 ≤ cur.1 := hc cur (List.mem_cons_self cur rest)
        simp only [covers_cons]
        constructor
        · rintro (⟨h1, h2⟩ | hrx)
          · rcases lt_max_iff.mp h2 with h2 | h2
            · exact Or.inl ⟨h1, h2⟩
            · by_cases hx : cur.1 ≤ x
              · exact Or.inr (Or.inl ⟨hx, h2⟩)
              · exact Or.inl ⟨h1, lt_of_lt_of_le (lt_of_not_le hx) h⟩
          · exact Or.inr (Or.inr hrx)
        · rintro (⟨h1, h2⟩ | ⟨h1, h2⟩ | hrx)
          · exact Or.inl ⟨h1, lt_of_lt_of_le h2 (le_max_left _ _)⟩
          · exact Or.inl ⟨le_trans hcc h1, lt_of_lt_of_le h2 (le_max_right _ _)⟩
          · exact Or.inr hrx
      · rw [merge_go, if_neg h]
        simp only [covers_cons, ih _ hs']

theorem merge_go_normalized (c : ℤ × ℤ) (r : List (ℤ × ℤ))
    (hs : (c :: r).Pairwise (fun a b => a.1 ≤ b.1))
    (hv : ∀ iv ∈ c :: r, iv.1 < iv.2) :
    Normalized (merge_go c r) := by
  induction r generalizing c with
  | nil =>
      exact ⟨List.pairwise_singleton _ _, by
        intro iv hiv
        simp only [merge_go, List.mem_singleton] at hiv
        subst hiv; exact hv iv (by simp)⟩
  | cons cur rest ih =>
      rcases List.pairwise_cons.mp hs with ⟨hc, hs'⟩
      by_cases h : cur.1 ≤ c.2
      · rw [merge_go, if_pos h]
        refine ih (c.1, max c.2 cur.2) ?_ ?_
        · refine List.pairwise_cons.mpr ⟨?_, (List.pairwise_cons.mp hs').2⟩
          intro b hb
          exact hc b (List.mem_cons_of_mem cur hb)
        · intro iv hiv
          rcases List.mem_cons.mp hiv with rfl | hiv
          · exact lt_of_lt_of_le (hv c (by simp)) (le_max_left _ _)
          · exact hv iv (by simp [hiv])
      · rw [merge_go, if_neg h]
        have hrec := ih cur hs' (fun iv hiv => hv iv (List.mem_cons_of_mem c hiv))
        refine ⟨List.pairwise_cons.mpr ⟨?_, hrec.1⟩, ?_⟩
        · intro p hp
          obtain ⟨⟨q, hq, h1⟩, -⟩ := merge_go_mem_ends cur rest p hp
          have hq1 : cur.1 ≤ q.1 := by
            rcases List.mem_cons.mp hq with rfl | hq
            · exact le_refl _
            · exact (List.pairwise_cons.mp hs').1 q hq
          rw [h1]
          exact lt_of_lt_of_le (lt_of_not_le h) hq1
        · intro iv hiv
          rcases List.mem_cons.mp hiv with rfl | hiv
          · exact hv iv (by simp)
          · exact hrec.2 iv hiv

theorem merge_intervals_spec (I : List (ℤ × ℤ)) (hv : ∀ iv ∈ I, iv.1 < iv.2) :
    Normalized (merge_intervals I)
    ∧ (∀ x, covers (merge_intervals I) x ↔ covers I x)
    ∧ (∀ p ∈ merge_intervals I, (∃ q ∈ I, p.1 = q.1) ∧ (∃ q ∈ I, p.2 = q.2))
    ∧ (I ≠ [] → merge_intervals I ≠ []) := by
  have hperm := List.perm_insertionSort (fun a b : ℤ × ℤ => a.1 ≤ b.1) I
  have hsorted := List.sorted_insertionSort (fun a b : ℤ × ℤ => a.1 ≤ b.1) I
  have hvs : ∀ iv ∈ List.insertionSort (fun a b : ℤ × ℤ => a.1 ≤ b.1) I, iv.1 < iv.2 :=
    fun iv hiv => hv iv (hperm.mem_iff.mp hiv)
  unfold merge_intervals
  rcases hI : List.insertionSort (fun a b : ℤ × ℤ => a.1 ≤ b.1) I with - | ⟨x, rest⟩
  · have : I = [] := by
      have := hperm.length_eq
      rw [hI] at this
      exact List.length_eq_zero.mp this.symm
    subst this
    refine ⟨⟨List.Pairwise.nil, by simp⟩, by simp, by simp, by simp⟩
  · rw [hI] at hperm hsorted hvs
    refine ⟨merge_go_normalized x rest hsorted hvs, ?_, ?_, fun _ => merge_go_ne_nil x rest⟩
    · intro xx
      rw [merge_go_covers x rest hsorted xx]
      exact covers_perm hperm xx
    · intro p hp
      obtain ⟨⟨q, hq, h1⟩, ⟨q', hq', h2⟩⟩ := merge_go_mem_ends x rest p hp
      exact ⟨⟨q, hperm.mem_iff.mp hq, h1⟩, ⟨q', hperm.mem_iff.mp hq', h2⟩⟩

theorem normalized_sorted {l : List (ℤ × ℤ)} (h : Normalized l) :
    l.Pairwise (fun a b : ℤ × ℤ => a.1 ≤ b.1) := by
  obtain ⟨hp, hv⟩ := h
  induction l with
  | nil => exact List.Pairwise.nil
  | cons a t ih =>
      rcases List.pairwise_cons.mp hp with ⟨ha, hp'⟩
      refine List.pairwise_cons.mpr ⟨?_, ih hp' (fun iv hiv => hv iv (by simp [hiv]))⟩
      intro b hb
      exact le_of_lt (lt_trans (hv a (by simp)) (ha b hb))

theorem merge_go_of_normalized (c : ℤ × ℤ) (r : List (ℤ × ℤ))
    (h : Normalized (c :: r)) : merge_go c r = c :: r := by
  induction r generalizing c with
  | nil => rfl
  | cons cur rest ih =>
      obtain ⟨hp, hv⟩ := h
      rcases List.pairwise_cons.mp hp with ⟨hc, hp'⟩
      have hne : ¬ cur.1 ≤ c.2 := not_le_of_lt (hc cur (by simp))
      rw [merge_go, if_neg hne,
        ih cur ⟨hp', fun iv hiv => hv iv (List.mem_cons_of_mem c hiv)⟩]

theorem merge_intervals_of_normalized {l : List (ℤ × ℤ)} (h : Normalized l) :
    merge_intervals l = l := by
  have hs : List.Sorted (fun a b : ℤ × ℤ => a.1 ≤ b.1) l := normalized_sorted h
  unfold merge_intervals
  rw [hs.insertionSort_eq]
  rcases l with - | ⟨x, rest⟩
  · rfl
  · exact merge_go_of_normalized x rest h

theorem invert_go_spec (L : ℤ) (l : List (ℤ × ℤ)) :
    ∀ cur : ℤ, Normalized l → (∀ iv ∈ l, cur ≤ iv.1 ∧ iv.2 ≤ L) →
    Normalized (invert_go L cur l)
    ∧ (∀ p ∈ invert_go L cur l, cur ≤ p.1 ∧ p.2 ≤ L)
    ∧ (∀ x, covers (invert_go L cur l) x ↔ cur ≤ x ∧ x < L ∧ ¬ covers l x) := by
  induction l with
  | nil =>
      intro cur _ _
      by_cases h : cur < L
      · rw [invert_go, if_pos h]
        refine ⟨⟨List.pairwise_singleton _ _, ?_⟩, ?_, ?_⟩
        · intro ivv hivv
          have he : ivv = (cur, L) := by simpa using hivv
          rw [he]; exact h
        · intro p hp
          have he : p = (cur, L) := by simpa using hp
          rw [he]; exact ⟨le_refl _, le_refl _⟩
        · intro x
          rw [covers_cons]
          constructor
          · rintro (⟨h1, h2⟩ | hcc)
            · exact ⟨h1, h2, covers_nil x⟩
            · exact absurd hcc (covers_nil x)
          · rintro ⟨h1, h2, -⟩
            exact Or.inl ⟨h1, h2⟩
      · rw [invert_go, if_neg h]
        refine ⟨⟨List.Pairwise.nil, by simp⟩, by simp, ?_⟩
        intro x
        constructor
        · intro hx; exact absurd hx (covers_nil x)
        · rintro ⟨h1, h2, -⟩; exact absurd (lt_of_le_of_lt h1 h2) h
  | cons iv rest ih =>
      intro cur hn hb
      obtain ⟨hp, hv⟩ := hn
      rcases List.pairwise_cons.mp hp with ⟨hiv, hp'⟩
      have hv1 : iv.1 < iv.2 := hv iv (by simp)
      have hL : iv.2 ≤ L := (hb iv (by simp)).2
      have hrec := ih (max cur iv.2) ⟨hp', fun jv hjv => hv jv (by simp [hjv])⟩
        (fun jv hjv => ⟨max_le (hb jv (by simp [hjv])).1 (le_of_lt (hiv jv hjv)),
          (hb jv (by simp [hjv])).2⟩)
      obtain ⟨ihN, ihB, ihC⟩ := hrec
      have hunfold : invert_go L cur (iv :: rest)
          = (if cur < iv.1 then [(cur, iv.1)] else []) ++ invert_go L (max cur iv.2) rest := rfl
      have hP : ∀ x, covers (if cur < iv.1 then [(cur, iv.1)] else []) x
          ↔ (cur ≤ x ∧ x < iv.1) := by
        intro x
        by_cases hc : cur < iv.1
        · rw [if_pos hc, covers_cons]
          constructor
          · rintro (hx | hcc)
            · exact hx
            · exact absurd hcc (covers_nil x)
          · exact fun hx => Or.inl hx
        · rw [if_neg hc]
          constructor
          · intro hx; exact absurd hx (covers_nil x)
          · rintro ⟨h1, h2⟩; exact absurd (lt_of_le_of_lt h1 h2) hc
      have hrx : ∀ x, covers rest x → iv.2 < x :=
        fun x hcov => by
          obtain ⟨jv, hjv, hj1, -⟩ := hcov
          exact lt_of_lt_of_le (hiv jv hjv) hj1
      rw [hunfold]
      refine ⟨?_, ?_, ?_⟩
      · refine ⟨List.pairwise_append.mpr ⟨?_, ihN.1, ?_⟩, ?_⟩
        · by_cases hc : cur < iv.1
          · rw [if_pos hc]; exact List.pairwise_singleton _ _
          · rw [if_neg hc]; exact List.Pairwise.nil
        · intro p hpm q hqm
          have hpv : p = (cur, iv.1) := by
            by_cases hc : cur < iv.1
            · rw [if_pos hc] at hpm; simpa using hpm
            · rw [if_neg hc] at hpm; exact absurd hpm (List.not_mem_nil p)
          have hq1 : max cur iv.2 ≤ q.1 := (ihB q hqm).1
          rw [hpv]
          exact lt_of_lt_of_le (lt_of_lt_of_le hv1 (le_max_right cur iv.2)) hq1
        · intro p hpm
          rcases List.mem_append.mp hpm with hpm | hpm
          · by_cases hc : cur < iv.1
            · rw [if_pos hc] at hpm
              have he : p = (cur, iv.1) := by simpa using hpm
              rw [he]; exact hc
            · rw [if_neg hc] at hpm; exact absurd hpm (List.not_mem_nil p)
          · exact ihN.2 p hpm
      · intro p hpm
        rcases List.mem_append.mp hpm with hpm | hpm
        · by_cases hc : cur < iv.1
          · rw [if_pos hc] at hpm
            have he : p = (cur, iv.1) := by simpa using hpm
            rw [he]
            exact ⟨le_refl _, le_trans (le_of_lt hv1) hL⟩
          · rw [if_neg hc] at hpm; exact absurd hpm (List.not_mem_nil p)
        · exact ⟨le_trans (le_max_left cur iv.2) (ihB p hpm).1, (ihB p hpm).2⟩
      · intro x
        rw [covers_append, hP x, ihC x, covers_cons]
        have hm1 : cur ≤ max cur iv.2 := le_max_left _ _
        have hm2 : iv.2 ≤ max cur iv.2 := le_max_right _ _
        constructor
        · rintro (⟨h1, h2⟩ | ⟨h1, h2, h3⟩)
          · refine ⟨h1, by omega, ?_⟩
            rintro (⟨ha, -⟩ | hcr)
            · omega
            · have := hrx x hcr; omega
          · refine ⟨by omega, h2, ?_⟩
            rintro (⟨-, hb2⟩ | hcr)
            · omega
            · exact h3 hcr
        · rintro ⟨h1, h2, h3⟩
          by_cases hx : x < iv.1
          · exact Or.inl ⟨h1, hx⟩
          · have hniv : ¬(iv.1 ≤ x ∧ x < iv.2) := fun hin => h3 (Or.inl hin)
            have hnr : ¬covers rest x := fun hc => h3 (Or.inr hc)
            have hx2 : iv.2 ≤ x := by
              rcases lt_or_le x iv.2 with hlt | hle
              · exact absurd ⟨le_of_not_lt hx, hlt⟩ hniv
              · exact hle
            exact Or.inr ⟨max_le h1 hx2, h2, hnr⟩

theorem normalized_ext {A : List (ℤ × ℤ)} : ∀ {B : List (ℤ × ℤ)}, Normalized A → Normalized B →
    (∀ x, covers A x ↔ covers B x) → A = B := by
  induction A with
  | nil =>
      intro B hA hB hcov
      rcases B with - | ⟨b, B'⟩
      · rfl
      · exfalso
        have hcb : covers (b :: B') b.1 := ⟨b, by simp, le_refl _, hB.2 b (by simp)⟩
        exact covers_nil b.1 ((hcov b.1).mpr hcb)
  | cons a A' ih =>
      intro B hA hB hcov
      rcases B with - | ⟨b, B'⟩
      · exfalso
        have hca : covers (a :: A') a.1 := ⟨a, by simp, le_refl _, hA.2 a (by simp)⟩
        exact covers_nil a.1 ((hcov a.1).mp hca)
      · obtain ⟨hpA, hvA⟩ := hA
        obtain ⟨hpB, hvB⟩ := hB
        rcases List.pairwise_cons.mp hpA with ⟨haA, hpA'⟩
        rcases List.pairwise_cons.mp hpB with ⟨hbB, hpB'⟩
        have hva : a.1 < a.2 := hvA a (by simp)
        have hvb : b.1 < b.2 := hvB b (by simp)
        have hlbA : ∀ x, covers (a :: A') x → a.1 ≤ x := by
          rintro x ⟨p, hp, h1, h2⟩
          rcases List.mem_cons.mp hp with rfl | hp
          · exact h1
          · have := haA p hp; omega
        have hlbB : ∀ x, covers (b :: B') x → b.1 ≤ x := by
          rintro x ⟨p, hp, h1, h2⟩
          rcases List.mem_cons.mp hp with rfl | hp
          · exact h1
          · have := hbB p hp; omega
        have h11 : a.1 = b.1 := by
          have c1 : covers (b :: B') b.1 := ⟨b, by simp, le_refl _, hvb⟩
          have c2 : covers (a :: A') a.1 := ⟨a, by simp, le_refl _, hva⟩
          have g1 := hlbA b.1 ((hcov b.1).mpr c1)
          have g2 := hlbB a.1 ((hcov a.1).mp c2)
          omega
        have h22 : a.2 = b.2 := by
          by_contra hne
          rcases lt_or_gt_of_ne hne with hlt | hgt
          · have cB : covers (b :: B') a.2 := ⟨b, by simp, by omega, hlt⟩
            obtain ⟨p, hp, h1, h2⟩ := (hcov a.2).mpr cB
            rcases List.mem_cons.mp hp with rfl | hp
            · omega
            · have := haA p hp; omega
          · have cA : covers (a :: A') b.2 := ⟨a, by simp, by omega, hgt⟩
            obtain ⟨q, hq, g1, g2⟩ := (hcov b.2).mp cA
            rcases List.mem_cons.mp hq with rfl | hq
            · omega
            · have := hbB q hq; omega
        have htails : ∀ x, covers A' x ↔ covers B' x := by
          intro x
          constructor
          · intro hc
            obtain ⟨p, hp, h1, h2⟩ := hc
            have hxa : a.2 < x := lt_of_lt_of_le (haA p hp) h1
            obtain ⟨q, hq, g1, g2⟩ := (hcov x).mp ⟨p, by simp [hp], h1, h2⟩
            rcases List.mem_cons.mp hq with rfl | hq
            · omega
            · exact ⟨q, hq, g1, g2⟩
          · intro hc
            obtain ⟨p, hp, h1, h2⟩ := hc
            have hxb : b.2 < x := lt_of_lt_of_le (hbB p hp) h1
            obtain ⟨q, hq, g1, g2⟩ := (hcov x).mpr ⟨p, by simp [hp], h1, h2⟩
            rcases List.mem_cons.mp hq with rfl | hq
            · omega
            · exact ⟨q, hq, g1, g2⟩
        have hAB := ih ⟨hpA', fun iv h => hvA iv (by simp [h])⟩
          ⟨hpB', fun iv h => hvB iv (by simp [h])⟩ htails
        rw [hAB]
        have hab : a = b := Prod.ext h11 h22
        rw [hab]

/-- C5: for any interval set whose members lie within `[0, total_length)`,
inverting the normalized inverted set again returns the original normalized
set: `invert(merge(invert(merge(I)))) = merge(I)`. -/
theorem c5_double_inversion (I : List (ℤ × ℤ)) (L : ℤ)
    (hI : ∀ iv ∈ I, 0 ≤ iv.1 ∧ iv.1 < iv.2 ∧ iv.2 ≤ L) :
    invert_intervals L (merge_intervals (invert_intervals L (merge_intervals I)))
      = merge_intervals I := by
  by_cases hIe : I = []
  · subst hIe
    have hm : merge_intervals ([] : List (ℤ × ℤ)) = [] := rfl
    rw [hm]
    have hi : invert_intervals L [] = [(0, L)] := rfl
    rw [hi]
    have hms : merge_intervals [(0, L)] = [(0, L)] := rfl
    rw [hms, invert_intervals, if_neg (by simp)]
    rw [hms]
    show (if (0:ℤ) < 0 then [((0:ℤ), (0:ℤ))] else []) ++ invert_go L (max 0 L) [] = []
    rw [if_neg (lt_irrefl 0)]
    rw [List.nil_append, invert_go, if_neg (not_lt_of_le (le_max_right 0 L))]
  · have hvI : ∀ iv ∈ I, iv.1 < iv.2 := fun iv h => (hI iv h).2.1
    obtain ⟨hMn, hMc, hMe, hMne⟩ := merge_intervals_spec I hvI
    set M := merge_intervals I with hM
    have hMb : ∀ iv ∈ M, 0 ≤ iv.1 ∧ iv.2 ≤ L := by
      intro iv hiv
      obtain ⟨⟨q, hq, e1⟩, ⟨q', hq', e2⟩⟩ := hMe iv hiv
      exact ⟨e1 ▸ (hI q hq).1, e2 ▸ (hI q' hq').2.2⟩
    have hMne' : M ≠ [] := hMne hIe
    have hInv : invert_intervals L M = invert_go L 0 M := by
      rw [invert_intervals, if_neg hMne', merge_intervals_of_normalized hMn]
    obtain ⟨hN1, hB1, hC1⟩ := invert_go_spec L M 0 hMn (fun iv hiv => hMb iv hiv)
    rw [hInv]
    set V := invert_go L 0 M with hV
    have hmergeV : merge_intervals V = V := merge_intervals_of_normalized hN1
    by_cases hVe : V = []
    · rw [hVe]
      have hm0 : merge_intervals ([] : List (ℤ × ℤ)) = [] := rfl
      rw [hm0]
      have hL0 : 0 < L := by
        obtain ⟨iv, hivm⟩ := List.exists_mem_of_ne_nil M hMne'
        have g1 := hMb iv hivm
        have g2 := hMn.2 iv hivm
        omega
      have hcovM : ∀ x, covers M x ↔ covers [(0, L)] x := by
        intro x
        rw [covers_cons]
        constructor
        · intro hc
          obtain ⟨iv, hiv, hx1, hx2⟩ := hc
          have hbb := hMb iv hiv
          exact Or.inl ⟨by omega, by omega⟩
        · rintro (⟨h1, h2⟩ | hcc)
          · by_contra hnc
            have hfalse := (hC1 x).mpr ⟨h1, h2, hnc⟩
            rw [hVe] at hfalse
            exact covers_nil x hfalse
          · exact absurd hcc (covers_nil x)
      have hMeq : M = [(0, L)] := by
        refine normalized_ext hMn ⟨List.pairwise_singleton _ _, ?_⟩ hcovM
        intro iv hiv
        have he : iv = (0, L) := by simpa using hiv
        rw [he]; exact hL0
      have := hMeq.symm
      exact this
    · rw [hmergeV, invert_intervals, if_neg hVe, hmergeV]
      obtain ⟨hN2, hB2, hC2⟩ := invert_go_spec L V 0 hN1 (fun iv hiv => hB1 iv hiv)
      apply normalized_ext hN2 hMn
      intro x
      rw [hC2 x, hC1 x]
      constructor
      · rintro ⟨h1, h2, h3⟩
        by_contra hnc
        exact h3 ⟨h1, h2, hnc⟩
      · intro hcM
        obtain ⟨iv, hiv, hx1, hx2⟩ := hcM
        have hbb := hMb iv hiv
        refine ⟨by omega, by omega, ?_⟩
        rintro ⟨-, -, hn⟩
        exact hn ⟨iv, hiv, hx1, hx2⟩

/-- C5 witness input: two overlapping and one separate interval in `[0, 20)`. -/
def c5_intervals : List (ℤ × ℤ) := [(3, 6), (1, 4), (10, 12)]

theorem c5_double_inversion_witness :
    (∀ iv ∈ c5_intervals, 0 ≤ iv.1 ∧ iv.1 < iv.2 ∧ iv.2 ≤ 20)
    ∧ invert_intervals 20 (merge_intervals (invert_intervals 20 (merge_intervals c5_intervals)))
        = merge_intervals c5_intervals :=
  ⟨by decide, c5_double_inversion c5_intervals 20 (by decide)⟩

/-- `blast_wrapper.filter_probes_by_blast` line 58: the strong-hit subset,
rows with `bitscore >= min_bitscore` and `evalue <= max_evalue`. -/
def strong_hit_rows (hits : List Hit) (args : DesignArgs) : List Hit :=
  hits.filter (fun h => decide (args.min_bitscore ≤ h.bitscore) && decide (h.evalue ≤ args.max_evalue))

/-- Strategy `any-strong-hit` (line 71): every `pair_id` appearing in the
strong-hit subset passes. -/
def any_strong_hit_set (strong : List Hit) : Finset String :=
  (strong.map Hit.pair_id).toFinset

/-- Strategy `specific-id` (lines 73-80): probes hitting the target minus
probes hitting any other id. -/
def specific_id_set (strong : List Hit) (target : String) : Finset String :=
  ((strong.filter (fun h => decide (h.hit_id = target))).map Hit.pair_id).toFinset
    \ ((strong.filter (fun h => decide (h.hit_id ≠ target))).map Hit.pair_id).toFinset

/-- Breadth of coverage for one transcript (line 88): number of distinct
probes among its strong hits. -/
def hit_breadth (strong : List Hit) (id : String) : ℕ :=
  (((strong.filter (fun h => decide (h.hit_id = id))).map Hit.pair_id).dedup).length

/-- Average hit quality for one transcript (line 90): mean bitscore of its
strong hits. -/
def hit_quality (strong : List Hit) (id : String) : ℚ :=
  let g := strong.filter (fun h => decide (h.hit_id = id))
  (g.map Hit.bitscore).sum / g.length

/-- Distinct `hit_id`s in ascending order, the iteration order of the pandas
`groupby('hit_id')` at line 86. -/
def transcript_ids (strong : List Hit) : List String :=
  List.insertionSort (fun a b : String => a ≤ b) ((strong.map Hit.hit_id).dedup)

/-- Best-supported transcript (lines 85-99): maximal `(breadth, quality)` in
lexicographic order; the stable descending sort of the source makes the
earliest group win ties. -/
def best_transcript_id (strong : List Hit) : Option String :=
  (transcript_ids strong).foldl
    (fun best id =>
      match best with
      | none => some id
      | some b =>
          if hit_breadth strong b < hit_breadth strong id
              ∨ (hit_breadth strong b = hit_breadth strong id
                  ∧ hit_quality strong b < hit_quality strong id)
          then some id else best)
    none

/-- Strategy `best-coverage` (lines 82-112): restrict the strong hits to
the fixed internal threshold `bitscore >= 75.0`, then keep probes hitting the
best-supported transcript and no other id. -/
def best_coverage_set (strong : List Hit) : Finset String :=
  match best_transcript_id strong with
  | none => ∅
  | some best =>
      let strong := strong.filter (fun h => decide ((75 : ℚ) ≤ h.bitscore))
      ((strong.filter (fun h => decide (h.hit_id = best))).map Hit.pair_id).toFinset
        \ ((strong.filter (fun h => decide (h.hit_id ≠ best))).map Hit.pair_id).toFinset

/-- Strategy dispatch (lines 66-112): unknown strategy names leave the passed
set empty, as in the source's if/elif chain. -/
def passed_probes_set (strategy : String) (strong : List Hit) (args : DesignArgs) :
    Finset String :=
  if strategy = "any-strong-hit" then any_strong_hit_set strong
  else if strategy = "specific-id" then specific_id_set strong args.target_transcript_id
  else if strategy = "best-coverage" then best_coverage_set strong
  else ∅

/-- Specificity Screener: `blast_wrapper.filter_probes_by_blast` lines 57-117
given the parsed hit table returned by the external BLAST collaborator.  The
second component is the `strong_hits` report table.  (The early exits of
lines 42-55 — screening disabled, subprocess failure, empty raw output — are
modelled in `filter_probes_by_blast` below and by passing the corresponding
hit table.) -/
def specificity_screen (probes : List FormattedProbe) (hits : List Hit) (args : DesignArgs) :
    List FormattedProbe × List Hit :=
  let strong := strong_hit_rows hits args
  if strong = [] then ([], strong)
  else (probes.filter
          (fun p => decide (p.pair_id ∈ passed_probes_set args.positive_selection_strategy strong args)),
        strong)

/-- `blast_wrapper.filter_probes_by_blast` including the line 42 guard: with
no probes or no `--blast-ref` the probe list is returned unchanged and the
report is empty (`none`). -/
def filter_probes_by_blast (probes : List FormattedProbe) (hits : List Hit) (args : DesignArgs) :
    List FormattedProbe × Option (List Hit) :=
  if probes = [] ∨ args.blast_ref = false then (probes, none)
  else ((specificity_screen probes hits args).1, some (specificity_screen probes hits args).2)

/-- C4: for any hit table and thresholds, the `specific-id` and
`best-coverage` passed sets are subsets of the `any-strong-hit` passed set. -/
theorem c4_strategy_subsets (hits : List Hit) (args : DesignArgs) :
    specific_id_set (strong_hit_rows hits args) args.target_transcript_id
        ⊆ any_strong_hit_set (strong_hit_rows hits args)
    ∧ best_coverage_set (strong_hit_rows hits args)
        ⊆ any_strong_hit_set (strong_hit_rows hits args) := by
  constructor
  · intro x hx
    rw [specific_id_set, Finset.mem_sdiff] at hx
    obtain ⟨hx, -⟩ := hx
    rw [List.mem_toFinset] at hx
    obtain ⟨h, hh, rfl⟩ := List.mem_map.mp hx
    rw [any_strong_hit_set, List.mem_toFinset]
    exact List.mem_map.mpr ⟨h, List.mem_of_mem_filter hh, rfl⟩
  · intro x hx
    rw [best_coverage_set] at hx
    rcases hbt : best_transcript_id (strong_hit_rows hits args) with - | best
    · rw [hbt] at hx
      exact absurd hx (Finset.not_mem_empty x)
    · rw [hbt] at hx
      simp only [Finset.mem_sdiff] at hx
      obtain ⟨hx, -⟩ := hx
      rw [List.mem_toFinset] at hx
      obtain ⟨h, hh, rfl⟩ := List.mem_map.mp hx
      rw [any_strong_hit_set, List.mem_toFinset]
      exact List.mem_map.mpr
        ⟨h, List.mem_of_mem_filter (List.mem_of_mem_filter hh), rfl⟩

/-- C7: the Specificity Screener always computes the strong-hit subset
(bitscore and e-value thresholds) as its report, and an empty strong
subset yields an empty passed list together with that (empty) report, no
matter which strategy is selected. -/
theorem c7_empty_strong_rows (probes : List FormattedProbe) (hits : List Hit)
    (args : DesignArgs) (hnil : strong_hit_rows hits args = []) :
    (specificity_screen probes hits args).2 = strong_hit_rows hits args
    ∧ specificity_screen probes hits args = ([], []) := by
  constructor
  · rw [specificity_screen]
    by_cases h : strong_hit_rows hits args = [] <;> simp [h]
  · rw [specificity_screen]
    simp [hnil]

/-- C7 witness input: one hit whose bitscore is below the threshold. -/
def c7_hit : Hit :=
  { pair_id := "g_cand_1", hit_id := "t1", pident := 100, length := 52,
    mismatch := 0, gapopen := 0, qstart := 1, qend := 52, sstart := 1,
    send := 52, evalue := 0, bitscore := 10 }

theorem c7_empty_strong_rows_witness :
    strong_hit_rows [c7_hit] c2w_args = []
    ∧ ((specificity_screen [] [c7_hit] c2w_args).2 = strong_hit_rows [c7_hit] c2w_args
        ∧ specificity_screen [] [c7_hit] c2w_args = ([], [])) :=
  ⟨by decide, c7_empty_strong_rows [] [c7_hit] c2w_args (by decide)⟩

/-- Models `np.linspace(0, stop, num=num).astype(int)` with exact rational
arithmetic: `num` evenly spaced points from `0` to `stop` inclusive, truncated
to integers.  As in numpy, the final point is set to `stop` exactly (numpy
assigns `y[-1] = stop` whenever `endpoint` holds and `num - 1 > 0`), and
`num = 1` yields `[0]`. -/
def linspace_indices (stop num : ℕ) : List ℕ :=
  (List.range num).map (fun i =>
    if 0 < num - 1 ∧ i = num - 1 then stop
    else (((i : ℚ) * stop) / ((num - 1 : ℕ) : ℚ)).floor.toNat)

/-- `prober.subsample_probes`: keep the list when it is short enough,
otherwise take the elements at `num_to_keep` evenly spaced indices. -/
def subsample_probes {α : Type} [Inhabited α] (probes : List α) (num_to_keep : ℕ) : List α :=
  if probes.length ≤ num_to_keep then probes
  else (linspace_indices (probes.length - 1) num_to_keep).map (fun i => probes.getD i default)

theorem getD_zero_eq_head {α : Type} [Inhabited α] (L : List α) (h : L ≠ []) :
    L.getD 0 default = L.head h := by
  cases L with
  | nil => exact absurd rfl h
  | cons a t => rfl

theorem getD_last_eq_getLast {α : Type} [Inhabited α] (L : List α) (h : L ≠ []) :
    L.getD (L.length - 1) default = L.getLast h := by
  have hlt : L.length - 1 < L.length := by
    cases L with
    | nil => exact absurd rfl h
    | cons a t => simp
  rw [List.getD_eq_getElem L default hlt, List.getLast_eq_getElem]

/-- C8: the Subsampler returns `min k len` probes, is the identity when `k ≥
len`, and keeps both the first and the last probe whenever `k ≥ 2`. -/
theorem c8_subsample {α : Type} [Inhabited α] (L : List α) (k : ℕ) :
    (subsample_probes L k).length = min k L.length
    ∧ (L.length ≤ k → subsample_probes L k = L)
    ∧ (2 ≤ k → ∀ h : L ≠ [],
        L.head h ∈ subsample_probes L k ∧ L.getLast h ∈ subsample_probes L k) := by
  refine ⟨?_, ?_, ?_⟩
  · by_cases hk : L.length ≤ k
    · rw [subsample_probes, if_pos hk, min_eq_right hk]
    · rw [subsample_probes, if_neg hk, min_eq_left (le_of_lt (lt_of_not_le hk))]
      rw [linspace_indices, List.map_map, List.length_map, List.length_range]
  · intro hk
    rw [subsample_probes, if_pos hk]
  · intro h2 h
    by_cases hk : L.length ≤ k
    · rw [subsample_probes, if_pos hk]
      exact ⟨List.head_mem h, List.getLast_mem h⟩
    · have hkl : k < L.length := lt_of_not_le hk
      rw [subsample_probes, if_neg hk, linspace_indices, List.map_map]
      constructor
      · refine List.mem_map.mpr ⟨0, List.mem_range.mpr (by omega), ?_⟩
        have hc : ¬ (0 < k - 1 ∧ 0 = k - 1) := by omega
        simp only [Function.comp_apply, if_neg hc, Nat.cast_zero, zero_mul, zero_div,
          Int.floor_zero, Int.toNat_zero]
        exact getD_zero_eq_head L h
      · refine List.mem_map.mpr ⟨k - 1, List.mem_range.mpr (by omega), ?_⟩
        simp only [Function.comp_apply]
        rw [if_pos ⟨(by omega : 0 < k - 1), trivial⟩]
        exact getD_last_eq_getLast L h
  
theorem c8_subsample_witness :
    (subsample_probes [10, 20, 30, 40, 50] 2).length = min 2 ([10, 20, 30, 40, 50] : List ℕ).length
    ∧ (([10, 20, 30, 40, 50] : List ℕ).length ≤ 7
        ∧ subsample_probes [10, 20, 30, 40, 50] 7 = [10, 20, 30, 40, 50])
    ∧ (2 ≤ 2 ∧ ([10, 20, 30, 40, 50] : List ℕ) ≠ [])
    ∧ (([10, 20, 30, 40, 50] : List ℕ).head (by decide) ∈ subsample_probes [10, 20, 30, 40, 50] 2
        ∧ ([10, 20, 30, 40, 50] : List ℕ).getLast (by decide) ∈ subsample_probes [10, 20, 30, 40, 50] 2) :=
  ⟨(c8_subsample [10, 20, 30, 40, 50] 2).1,
   ⟨by decide, (c8_subsample [10, 20, 30, 40, 50] 7).2.1 (by decide)⟩,
   ⟨by decide, by decide⟩,
   (c8_subsample [10, 20, 30, 40, 50] 2).2.2 (by decide) (by decide)⟩

/-- Sort key of `prober.select_spatially_diverse_probes` line 51: coordinate
end `start_pos_rev + window_size`. -/
def probe_sort_key (args : DesignArgs) (p : FormattedProbe) : ℕ :=
  p.start_pos_rev + args.window_size

/-- Line 51: stable sort of the candidates by coordinate end. -/
def sorted_probes (probes : List FormattedProbe) (args : DesignArgs) : List FormattedProbe :=
  List.insertionSort (fun a b => probe_sort_key args a ≤ probe_sort_key args b) probes

/-- Line 54: `window_size + min_probe_distance`. -/
def required_footprint (args : DesignArgs) : ℕ :=
  args.window_size + args.min_probe_distance

/-- Compatibility test of line 57 on the sorted start list: candidate `j` can
precede candidate `i`. -/
def compatb (st : List ℕ) (F i j : ℕ) : Bool :=
  decide (st.getD j 0 + F ≤ st.getD i 0)

/-- Maximum of a list of naturals (with `0` for the empty list). -/
def fold_max (l : List ℕ) : ℕ := l.foldr max 0

/-- Length `dp[i]` of the longest compatible chain ending at sorted position
`i`, as computed by the nested loops of lines 55-59: one more than the best
`dp[j]` over compatible `j < i` (or `1` when none exists). -/
def dp (st : List ℕ) (F : ℕ) (i : ℕ) : ℕ :=
  1 + fold_max (((List.range i).attach).map
      (fun j => if compatb st F i j.1 then dp st F j.1 else 0))
termination_by i
decreasing_by exact List.mem_range.mp j.2

/-- Backtrack pointer of lines 55-59: the first compatible `j < i` whose
`dp[j]` attains the maximum (the strict-improvement update keeps the earliest
maximiser), or `none` when no compatible predecessor exists (`-1`). -/
def bt (st : List ℕ) (F : ℕ) (i : ℕ) : Option ℕ :=
  ((List.range i).filter (compatb st F i)).find?
    (fun j => decide (dp st F j
      = fold_max (((List.range i).filter (compatb st F i)).map (dp st F))))

/-- First index attaining the maximal `dp` value, as found by the
strict-improvement scan of lines 61-64 starting from `max_len = 0`. -/
def best_end (st : List ℕ) (F : ℕ) (n : ℕ) : Option ℕ :=
  (List.range n).find? (fun i => decide (dp st F i
    = fold_max ((List.range n).map (dp st F))))

theorem fold_max_le {l : List ℕ} {m : ℕ} (h : ∀ x ∈ l, x ≤ m) : fold_max l ≤ m := by
  induction l with
  | nil => exact Nat.zero_le m
  | cons a t ih =>
      exact max_le (h a (by simp)) (ih (fun x hx => h x (by simp [hx])))

theorem le_fold_max {l : List ℕ} {x : ℕ} (h : x ∈ l) : x ≤ fold_max l := by
  induction l with
  | nil => exact absurd h (List.not_mem_nil x)
  | cons a t ih =>
      rcases List.mem_cons.mp h with rfl | h
      · exact le_max_left _ _
      · exact le_trans (ih h) (le_max_right _ _)

theorem fold_max_mem {l : List ℕ} (hne : l ≠ []) : fold_max l ∈ l := by
  induction l with
  | nil => exact absurd rfl hne
  | cons a t ih =>
      rcases eq_or_ne t [] with rfl | hte
      · simp [fold_max]
      · rcases le_total (fold_max t) a with hle | hle
        · have : fold_max (a :: t) = a := max_eq_left hle
          rw [this]; exact List.mem_cons_self a t
        · have : fold_max (a :: t) = fold_max t := max_eq_right hle
          rw [this]; exact List.mem_cons_of_mem a (ih hte)

theorem fold_max_cons (x : ℕ) (xs : List ℕ) : fold_max (x :: xs) = max x (fold_max xs) := rfl

theorem fold_max_if_filter {α : Type} (l : List α) (p : α → Bool) (f : α → ℕ) :
    fold_max (l.map (fun x => if p x then f x else 0))
      = fold_max ((l.filter p).map f) := by
  induction l with
  | nil => rfl
  | cons a t ih =>
      by_cases hp : p a
      · rw [List.map_cons, List.filter_cons_of_pos hp, List.map_cons,
          fold_max_cons, fold_max_cons, if_pos hp, ih]
      · rw [List.map_cons, List.filter_cons_of_neg hp, fold_max_cons, if_neg hp, ih,
          Nat.zero_max]

theorem dp_eq (st : List ℕ) (F i : ℕ) :
    dp st F i = 1 + fold_max ((List.range i).map
      (fun j => if compatb st F i j then dp st F j else 0)) := by
  rw [dp]
  congr 1
  congr 1
  exact List.attach_map_val (List.range i) (fun j => if compatb st F i j then dp st F j else 0)

theorem dp_pos (st : List ℕ) (F i : ℕ) : 1 ≤ dp st F i := by
  rw [dp_eq]; exact Nat.le_add_right 1 _

theorem dp_eq_filter (st : List ℕ) (F i : ℕ) :
    dp st F i = 1 + fold_max (((List.range i).filter (compatb st F i)).map (dp st F)) := by
  rw [dp_eq, fold_max_if_filter]

theorem dp_ge {st : List ℕ} {F i j : ℕ} (hj : j < i) (hc : compatb st F i j = true) :
    dp st F j + 1 ≤ dp st F i := by
  rw [dp_eq st F i]
  have hmem : dp st F j ∈ (List.range i).map
      (fun j => if compatb st F i j then dp st F j else 0) :=
    List.mem_map.mpr ⟨j, List.mem_range.mpr hj, by rw [if_pos hc]⟩
  have := le_fold_max hmem
  omega

theorem bt_lt {st : List ℕ} {F i j : ℕ} (h : bt st F i = some j) : j < i := by
  have hmem := List.mem_of_find?_eq_some h
  exact List.mem_range.mp (List.mem_of_mem_filter hmem)

theorem bt_none {st : List ℕ} {F i : ℕ} (h : bt st F i = none) :
    (List.range i).filter (compatb st F i) = [] := by
  by_contra hne
  have hmm : fold_max (((List.range i).filter (compatb st F i)).map (dp st F))
      ∈ ((List.range i).filter (compatb st F i)).map (dp st F) :=
    fold_max_mem (by simpa using hne)
  obtain ⟨j, hjm, hje⟩ := List.mem_map.mp hmm
  have := List.find?_eq_none.mp h j hjm
  rw [decide_eq_true_iff] at this
  exact this hje

theorem bt_some_spec {st : List ℕ} {F i j : ℕ} (h : bt st F i = some j) :
    compatb st F i j = true
    ∧ dp st F j = fold_max (((List.range i).filter (compatb st F i)).map (dp st F)) := by
  have hmem := List.mem_of_find?_eq_some h
  have hpred := List.find?_some h
  rw [decide_eq_true_iff] at hpred
  exact ⟨List.of_mem_filter hmem, hpred⟩

theorem dp_of_bt_some {st : List ℕ} {F i j : ℕ} (h : bt st F i = some j) :
    dp st F i = 1 + dp st F j := by
  rw [dp_eq_filter, (bt_some_spec h).2]

theorem dp_of_bt_none {st : List ℕ} {F i : ℕ} (h : bt st F i = none) :
    dp st F i = 1 := by
  rw [dp_eq_filter, bt_none h]
  rfl

/-- Backtracking walk of lines 65-68 before the final `reverse`: the chosen
chain from its end index down to the start of the chain. -/
def chain_rev (st : List ℕ) (F : ℕ) (i : ℕ) : List ℕ :=
  match h : bt st F i with
  | none => [i]
  | some j => i :: chain_rev st F j
termination_by i
decreasing_by exact bt_lt h

theorem chain_rev_of_none {st : List ℕ} {F i : ℕ} (h : bt st F i = none) :
    chain_rev st F i = [i] := by
  rw [chain_rev, h]

theorem chain_rev_of_some {st : List ℕ} {F i j : ℕ} (h : bt st F i = some j) :
    chain_rev st F i = i :: chain_rev st F j := by
  rw [chain_rev, h]

/-- Predecessor relation along the reconstructed chain, read from the end of
the chain backwards. -/
def desc_rel (st : List ℕ) (F : ℕ) (a b : ℕ) : Prop :=
  b < a ∧ st.getD b 0 + F ≤ st.getD a 0

theorem chain_le (st : List ℕ) (F : ℕ) :
    ∀ c : List ℕ, List.Chain' (desc_rel st F) c →
    ∀ i, c.head? = some i → c.length ≤ dp st F i := by
  intro c
  induction c with
  | nil => intro _ i hi; exact absurd hi (by simp)
  | cons a t ih =>
      intro hch i hi
      have ha : a = i := by simpa using hi
      subst ha
      cases t with
      | nil => simpa using dp_pos st F a
      | cons b t' =>
          rcases List.chain'_cons.mp hch with ⟨⟨hba, hcomp⟩, hch'⟩
          have hb := ih hch' b rfl
          have hstep : dp st F b + 1 ≤ dp st F a :=
            dp_ge hba (decide_eq_true hcomp)
          simp only [List.length_cons] at hb ⊢
          omega

theorem chain_rev_spec (st : List ℕ) (F : ℕ) : ∀ i,
    (chain_rev st F i).head? = some i
    ∧ List.Chain' (desc_rel st F) (chain_rev st F i)
    ∧ (chain_rev st F i).length = dp st F i
    ∧ ∀ x ∈ chain_rev st F i, x ≤ i := by
  intro i
  induction i using Nat.strong_induction_on with
  | _ i ih =>
      rcases hb : bt st F i with - | j
      · rw [chain_rev_of_none hb]
        exact ⟨rfl, List.chain'_singleton i, by simp [dp_of_bt_none hb], by simp⟩
      · have hji := bt_lt hb
        obtain ⟨ihh, ihc, ihl, ihb⟩ := ih j hji
        rw [chain_rev_of_some hb]
        refine ⟨rfl, ?_, ?_, ?_⟩
        · refine List.chain'_cons'.mpr ⟨?_, ihc⟩
          intro y hy
          rw [ihh] at hy
          have hyj : j = y := by simpa using hy
          subst hyj
          exact ⟨hji, decide_eq_true_iff.mp (bt_some_spec hb).1⟩
        · simp only [List.length_cons, ihl, dp_of_bt_some hb]
          omega
        · intro x hx
          rcases List.mem_cons.mp hx with rfl | hx
          · exact le_refl x
          · exact le_trans (ihb x hx) (le_of_lt hji)

theorem best_end_spec {st : List ℕ} {F n b : ℕ} (h : best_end st F n = some b) :
    b < n ∧ dp st F b = fold_max ((List.range n).map (dp st F)) := by
  have hmem := List.mem_of_find?_eq_some h
  have hpred := List.find?_some h
  rw [decide_eq_true_iff] at hpred
  exact ⟨List.mem_range.mp hmem, hpred⟩

theorem best_end_isSome (st : List ℕ) (F n : ℕ) (hn : n ≠ 0) :
    ∃ b, best_end st F n = some b := by
  have hne : (List.range n).map (dp st F) ≠ [] := by
    simp only [ne_eq, List.map_eq_nil_iff, List.range_eq_nil]
    exact hn
  obtain ⟨b, hbm, hbe⟩ := List.mem_map.mp (fold_max_mem hne)
  have : (best_end st F n).isSome := by
    rw [best_end, List.find?_isSome]
    exact ⟨b, hbm, decide_eq_true hbe⟩
  exact Option.isSome_iff_exists.mp this

/-- `prober.select_spatially_diverse_probes`: stable sort by coordinate end,
quadratic dynamic program, argmax scan, backtracking walk, final reverse.
The `if not dp` guard of line 60 corresponds to the unreachable `none`
branch of the argmax. -/
def select_spatially_diverse_probes (probes : List FormattedProbe) (args : DesignArgs) :
    List FormattedProbe :=
  if probes = [] then []
  else
    match best_end ((sorted_probes probes args).map FormattedProbe.start_pos_rev)
        (required_footprint args) (sorted_probes probes args).length with
    | none => []
    | some b =>
        ((chain_rev ((sorted_probes probes args).map FormattedProbe.start_pos_rev)
            (required_footprint args) b).map
          (fun i => (sorted_probes probes args).getD i default)).reverse

theorem map_getD_sublist {α : Type} [Inhabited α] (xs : List α) (idx : List ℕ)
    (hp : idx.Pairwise (· < ·)) (hb : ∀ i ∈ idx, i < xs.length) :
    (idx.map (fun i => xs.getD i default)).Sublist xs := by
  have key : ∀ (l : List ℕ) (hl : ∀ i ∈ l, i < xs.length),
      (l.pmap (fun i h => (⟨i, h⟩ : Fin xs.length)) hl).map (fun j : Fin xs.length => xs[j])
        = l.map (fun i => xs.getD i default) := by
    intro l
    induction l with
    | nil => intro hl; rfl
    | cons a t ihh =>
        intro hl
        simp only [List.pmap, List.map_cons]
        rw [ihh]
        congr 1
        exact (List.getD_eq_getElem xs default (hl a (by simp))).symm
  rw [← key idx hb]
  apply List.map_getElem_sublist
  exact hp.pmap hb (fun x hx y hy hxy => Fin.mk_lt_mk.mpr hxy)

theorem getD_map_start (l : List FormattedProbe) (i : ℕ) (h : i < l.length) :
    (l.map FormattedProbe.start_pos_rev).getD i 0 = (l.getD i default).start_pos_rev := by
  rw [List.getD_eq_getElem _ 0 (by simpa using h), List.getD_eq_getElem _ default h,
    List.getElem_map]

theorem chain_map_of_bounded {α : Type} {R : ℕ → ℕ → Prop} {S : α → α → Prop}
    (Q : ℕ → Prop) (f : ℕ → α) :
    ∀ c : List ℕ, List.Chain' R c → (∀ x ∈ c, Q x) →
    (∀ a b, Q a → Q b → R a b → S (f a) (f b)) → List.Chain' S (c.map f) := by
  intro c
  induction c with
  | nil => intro _ _ _; simp
  | cons a t ih =>
      intro hc hq himp
      rw [List.map_cons]
      refine List.chain'_cons'.mpr ⟨?_, ?_⟩
      · intro y hy
        cases t with
        | nil => simp at hy
        | cons bb t' =>
            have hy' : f bb = y := by simpa using hy
            subst hy'
            exact himp a bb (hq a (by simp)) (hq bb (by simp))
              (List.chain'_cons.mp hc).1
      · exact ih ((List.chain'_cons'.mp hc).2) (fun x hx => hq x (by simp [hx])) himp

theorem gap_sublist_bound (st : List ℕ) (F : ℕ) (u : List ℕ)
    (hsub : u.Sublist st) (hgap : u.Pairwise (fun a b => a + F ≤ b)) (hne : u ≠ []) :
    ∃ i, i < st.length ∧ u.length ≤ dp st F i := by
  obtain ⟨is, hue, hip⟩ := List.sublist_eq_map_getElem hsub
  have hisne : is ≠ [] := by
    rintro rfl
    exact hne (by simpa using hue)
  have hgap' : is.Pairwise (fun x y : Fin st.length => st[x] + F ≤ st[y]) := by
    rw [hue] at hgap
    exact List.pairwise_map.mp hgap
  have hcomb : is.Pairwise (fun x y : Fin st.length => desc_rel st F y.val x.val) := by
    refine (hip.and hgap').imp ?_
    rintro x y ⟨h1, h2⟩
    refine ⟨h1, ?_⟩
    rw [List.getD_eq_getElem st 0 x.isLt, List.getD_eq_getElem st 0 y.isLt]
    exact h2
  have hchain : List.Chain' (fun a b : Fin st.length => desc_rel st F a.val b.val)
      is.reverse := List.chain'_reverse.mpr hcomb.chain'
  have hchainN : List.Chain' (desc_rel st F) (is.reverse.map Fin.val) :=
    List.chain'_map Fin.val |>.mpr hchain
  have hhead : (is.reverse.map Fin.val).head? = some (is.getLast hisne).val := by
    rw [List.head?_map, List.head?_reverse, List.getLast?_eq_getLast is hisne]
    rfl
  have hlen := chain_le st F (is.reverse.map Fin.val) hchainN (is.getLast hisne).val hhead
  refine ⟨(is.getLast hisne).val, (is.getLast hisne).isLt, ?_⟩
  have hl1 : (is.reverse.map Fin.val).length = is.length := by simp
  have hl2 : u.length = is.length := by rw [hue]; simp
  omega

theorem select_core (P : List FormattedProbe) (args : DesignArgs) (b : ℕ)
    (hbe : best_end (P.map FormattedProbe.start_pos_rev) (required_footprint args)
        P.length = some b) :
    (((chain_rev (P.map FormattedProbe.start_pos_rev) (required_footprint args) b).map
        (fun i => P.getD i default)).reverse).Sublist P
    ∧ List.Chain' (fun p q => p.start_pos_rev + args.window_size + args.min_probe_distance
        ≤ q.start_pos_rev)
        (((chain_rev (P.map FormattedProbe.start_pos_rev) (required_footprint args) b).map
          (fun i => P.getD i default)).reverse)
    ∧ (((chain_rev (P.map FormattedProbe.start_pos_rev) (required_footprint args) b).map
        (fun i => P.getD i default)).reverse).length
      = dp (P.map FormattedProbe.start_pos_rev) (required_footprint args) b := by
  obtain ⟨hhead, hchain, hlen, hbound⟩ :=
    chain_rev_spec (P.map FormattedProbe.start_pos_rev) (required_footprint args) b
  have hbn : b < P.length := by
    have h1 := (best_end_spec hbe).1
    exact h1
  have hboundN : ∀ x ∈ chain_rev (P.map FormattedProbe.start_pos_rev)
      (required_footprint args) b, x < P.length :=
    fun x hx => lt_of_le_of_lt (hbound x hx) hbn
  have hcchain : List.Chain'
      (fun a c => desc_rel (P.map FormattedProbe.start_pos_rev) (required_footprint args) c a)
      ((chain_rev (P.map FormattedProbe.start_pos_rev) (required_footprint args) b).reverse) :=
    List.chain'_reverse.mpr hchain
  have hcbound : ∀ x ∈ (chain_rev (P.map FormattedProbe.start_pos_rev)
      (required_footprint args) b).reverse, x < P.length :=
    fun x hx => hboundN x (List.mem_reverse.mp hx)
  have hcpair_lt : ((chain_rev (P.map FormattedProbe.start_pos_rev)
      (required_footprint args) b).reverse).Pairwise (· < ·) := by
    haveI : IsTrans ℕ (fun a c =>
        desc_rel (P.map FormattedProbe.start_pos_rev) (required_footprint args) c a) := by
      refine ⟨fun x y z h1 h2 => ?_⟩
      obtain ⟨ha1, ha2⟩ := h1
      obtain ⟨hb1, hb2⟩ := h2
      exact ⟨lt_trans ha1 hb1, by omega⟩
    exact (List.chain'_iff_pairwise.mp hcchain).imp (fun h => h.1)
  have hmaprev : ((chain_rev (P.map FormattedProbe.start_pos_rev)
        (required_footprint args) b).map (fun i => P.getD i default)).reverse
      = ((chain_rev (P.map FormattedProbe.start_pos_rev)
          (required_footprint args) b).reverse).map (fun i => P.getD i default) :=
    (List.map_reverse _ _).symm
  refine ⟨?_, ?_, ?_⟩
  · rw [hmaprev]
    exact map_getD_sublist P _ hcpair_lt hcbound
  · rw [hmaprev]
    refine chain_map_of_bounded (fun x => x < P.length) _ _ hcchain hcbound ?_
    rintro a c ha hc ⟨h1, h2⟩
    have ga := getD_map_start P a ha
    have gb := getD_map_start P c hc
    rw [ga, gb] at h2
    unfold required_footprint at h2
    omega
  · rw [hmaprev]
    simp only [List.length_map, List.length_reverse]
    exact hlen

/-- C1: the Spatial Diversity Selector returns a sub-multiset of its input
that is pairwise compatible (every pair of consecutive selected candidates in
coordinate order satisfies the `window_size + min_probe_distance` gap), whose
cardinality is the maximum over all pairwise-compatible sub-multisets; the
empty input returns an empty list without error. -/
theorem c1_select_spatially_diverse (probes : List FormattedProbe) (args : DesignArgs) :
    (select_spatially_diverse_probes probes args).Subperm probes
    ∧ List.Chain' (fun p q => p.start_pos_rev + args.window_size + args.min_probe_distance
        ≤ q.start_pos_rev) (select_spatially_diverse_probes probes args)
    ∧ (select_spatially_diverse_probes probes args).Pairwise
        (fun p q => p.start_pos_rev + args.window_size + args.min_probe_distance
          ≤ q.start_pos_rev)
    ∧ (∀ t : List FormattedProbe, t.Subperm probes →
        t.Pairwise (fun p q => p.start_pos_rev + args.window_size + args.min_probe_distance
          ≤ q.start_pos_rev) →
        t.length ≤ (select_spatially_diverse_probes probes args).length)
    ∧ (probes = [] → select_spatially_diverse_probes probes args = []) := by
  haveI htrans : IsTrans FormattedProbe (fun p q : FormattedProbe =>
      p.start_pos_rev + args.window_size + args.min_probe_distance ≤ q.start_pos_rev) :=
    ⟨fun a b c h1 h2 => by omega⟩
  by_cases hpe : probes = []
  · subst hpe
    have hsel : select_spatially_diverse_probes [] args = [] := by
      rw [select_spatially_diverse_probes, if_pos rfl]
    rw [hsel]
    refine ⟨List.nil_subperm, List.chain'_nil, List.Pairwise.nil, ?_, fun _ => rfl⟩
    intro t hts _
    have ht : t = [] := List.subperm_nil.mp hts
    simp [ht]
  · have hperm : (sorted_probes probes args).Perm probes :=
      List.perm_insertionSort _ probes
    have hn : (sorted_probes probes args).length ≠ 0 := by
      rw [hperm.length_eq]
      simpa [List.length_eq_zero] using hpe
    obtain ⟨b, hbe⟩ := best_end_isSome
      ((sorted_probes probes args).map FormattedProbe.start_pos_rev)
      (required_footprint args) (sorted_probes probes args).length hn
    have hsel : select_spatially_diverse_probes probes args
        = ((chain_rev ((sorted_probes probes args).map FormattedProbe.start_pos_rev)
            (required_footprint args) b).map
          (fun i => (sorted_probes probes args).getD i default)).reverse := by
      rw [select_spatially_diverse_probes, if_neg hpe, hbe]
    obtain ⟨hsub, hchain, hlen⟩ := select_core (sorted_probes probes args) args b hbe
    refine ⟨?_, ?_, ?_, ?_, fun h => absurd h hpe⟩
    · rw [hsel]
      exact (hsub.subperm).trans hperm.subperm
    · rw [hsel]; exact hchain
    · rw [hsel]
      exact List.chain'_iff_pairwise.mp hchain
    · intro t hts htp
      rcases eq_or_ne t [] with rfl | htne
      · simp
      · haveI : IsTotal FormattedProbe
            (fun a b => probe_sort_key args a ≤ probe_sort_key args b) :=
          ⟨fun a b => le_total _ _⟩
        haveI : IsTrans FormattedProbe
            (fun a b => probe_sort_key args a ≤ probe_sort_key args b) :=
          ⟨fun _ _ _ h1 h2 => le_trans h1 h2⟩
        have hsorted : (sorted_probes probes args).Pairwise
            (fun a b => probe_sort_key args a ≤ probe_sort_key args b) :=
          List.sorted_insertionSort _ probes
        have hst_sorted : ((sorted_probes probes args).map
            FormattedProbe.start_pos_rev).Pairwise (· ≤ ·) := by
          refine List.pairwise_map.mpr (hsorted.imp ?_)
          intro a b h
          unfold probe_sort_key at h
          omega
        have hu_gap : (t.map FormattedProbe.start_pos_rev).Pairwise
            (fun a b => a + required_footprint args ≤ b) := by
          refine List.pairwise_map.mpr (htp.imp ?_)
          intro a b h
          unfold required_footprint
          omega
        have hu_sorted : (t.map FormattedProbe.start_pos_rev).Pairwise
            (fun a b : ℕ => a ≤ b) :=
          hu_gap.imp (fun h => by omega)
        have hu_subperm : (t.map FormattedProbe.start_pos_rev).Subperm
            ((sorted_probes probes args).map FormattedProbe.start_pos_rev) := by
          obtain ⟨l, hlp, hls⟩ := hts
          refine List.Subperm.trans
            ⟨l.map FormattedProbe.start_pos_rev, hlp.map _, hls.map _⟩ ?_
          exact ((hperm.map FormattedProbe.start_pos_rev).symm).subperm
        have hu_sub : (t.map FormattedProbe.start_pos_rev).Sublist
            ((sorted_probes probes args).map FormattedProbe.start_pos_rev) :=
          List.sublist_of_subperm_of_sorted hu_subperm hu_sorted hst_sorted
        have hu_ne : t.map FormattedProbe.start_pos_rev ≠ [] := by
          simpa using htne
        obtain ⟨i, hi, hile⟩ := gap_sublist_bound _ (required_footprint args) _
          hu_sub hu_gap hu_ne
        have hidp : dp ((sorted_probes probes args).map FormattedProbe.start_pos_rev)
            (required_footprint args) i
            ≤ dp ((sorted_probes probes args).map FormattedProbe.start_pos_rev)
              (required_footprint args) b := by
          rw [(best_end_spec hbe).2]
          refine le_fold_max (List.mem_map.mpr ⟨i, List.mem_range.mpr ?_, rfl⟩)
          simpa using hi
        have htu : t.length = (t.map FormattedProbe.start_pos_rev).length := by simp
        rw [hsel]
        omega

/-- C1 witness inputs: two candidates far enough apart to be compatible. -/
def c1_probe_a : FormattedProbe := ⟨"g_cand_1", [], [], 0, 0⟩

/-- Second C1 witness candidate, 100 nt downstream. -/
def c1_probe_b : FormattedProbe := ⟨"g_cand_2", [], [], 0, 100⟩

theorem c1_select_witness :
    ([c1_probe_a, c1_probe_b].Subperm [c1_probe_a, c1_probe_b]
      ∧ [c1_probe_a, c1_probe_b].Pairwise
          (fun p q => p.start_pos_rev + c2w_args.window_size + c2w_args.min_probe_distance
            ≤ q.start_pos_rev))
    ∧ ([c1_probe_a, c1_probe_b] : List FormattedProbe).length
        ≤ (select_spatially_diverse_probes [c1_probe_a, c1_probe_b] c2w_args).length
    ∧ (select_spatially_diverse_probes [c1_probe_a, c1_probe_b] c2w_args).Subperm
        [c1_probe_a, c1_probe_b]
    ∧ (([] : List FormattedProbe) = []
        ∧ select_spatially_diverse_probes [] c2w_args = []) :=
  ⟨⟨by decide, by decide⟩,
   (c1_select_spatially_diverse [c1_probe_a, c1_probe_b] c2w_args).2.2.2.1
     [c1_probe_a, c1_probe_b] (by decide) (by decide),
   (c1_select_spatially_diverse [c1_probe_a, c1_probe_b] c2w_args).1,
   rfl, (c1_select_spatially_diverse [] c2w_args).2.2.2.2 rfl⟩

/-- Line 15 of `prober.py`: drop windows with `start_pos_rev >=
len(rev_comp_seq) - skip_5prime` (truncated subtraction matches the Python
comparison against a possibly negative bound). -/
def skip_5prime_filter (rc_len : ℕ) (args : DesignArgs) (ws : List Window) : List Window :=
  ws.filter (fun w => decide (w.start_pos_rev < rc_len - args.skip_5prime))

/-- Lines 20-26: drop windows whose sense-coordinate span overlaps a masked
interval (half-open overlap test). -/
def region_mask_filter (orig_len : ℕ) (args : DesignArgs) (mask_intervals : List (ℤ × ℤ))
    (ws : List Window) : List Window :=
  ws.filter (fun w =>
    !(mask_intervals.any (fun m =>
      decide (max ((orig_len : ℤ) - w.start_pos_rev - args.window_size) m.1
        < min (((orig_len : ℤ) - w.start_pos_rev - args.window_size) + args.window_size) m.2))))

/-- Prefix test on character lists. -/
def starts_with_chars : List Char → List Char → Bool
  | [], _ => true
  | _ :: _, [] => false
  | a :: as_, b :: bs => a = b && starts_with_chars as_ bs

/-- Substring test, modelling Python's `needle in hay`. -/
def contains_sub (needle : List Char) : List Char → Bool
  | [] => needle.isEmpty
  | c :: rest => starts_with_chars needle (c :: rest) || contains_sub needle rest

/-- Line 30: drop windows whose sequence contains (case-insensitively) any
masking sequence. -/
def seq_mask_filter (masks : List (List Char)) (ws : List Window) : List Window :=
  ws.filter (fun w => !(masks.any (fun m =>
    contains_sub (m.map Char.toUpper) (w.window_sequence.map Char.toUpper))))

/-- Predicate of line 32: no over-long homopolymer and whole-window GC within
bounds. -/
def thermo_ok (args : DesignArgs) (w : Window) : Bool :=
  !(has_homopolymer w.window_sequence args.max_homopolymer)
  && decide (args.min_gc ≤ calculate_gc_content w.window_sequence)
  && decide (calculate_gc_content w.window_sequence ≤ args.max_gc)

/-- Line 32: the thermodynamic/homopolymer filter. -/
def thermo_filter (args : DesignArgs) (ws : List Window) : List Window :=
  ws.filter (thermo_ok args)

/-- Lines 34-39: split each window into its two arms, keep it if the arm GC
difference is within `max_gc_diff`, annotating the arm sequences. -/
def gc_balance_filter (args : DesignArgs) (ws : List Window) : List Window :=
  ws.filterMap (fun w =>
    if |calculate_gc_content (w.window_sequence.take args.probe_len)
        - calculate_gc_content (w.window_sequence.drop (args.probe_len + args.spacer_len))|
        ≤ args.max_gc_diff
    then some { w with
        probe_up_target := w.window_sequence.drop (args.probe_len + args.spacer_len),
        probe_dn_target := w.window_sequence.take args.probe_len }
    else none)

/-- Lines 40-45: keep windows whose two arm melting temperatures both fall in
`[min_tm, max_tm]`, annotating them. -/
def tm_filter (args : DesignArgs) (ws : List Window) : List Window :=
  ws.filterMap (fun w =>
    if args.min_tm ≤ args.calc_tm w.probe_dn_target
        ∧ args.calc_tm w.probe_dn_target ≤ args.max_tm
        ∧ args.min_tm ≤ args.calc_tm w.probe_up_target
        ∧ args.calc_tm w.probe_up_target ≤ args.max_tm
    then some { w with tm_dn := args.calc_tm w.probe_dn_target,
                       tm_up := args.calc_tm w.probe_up_target }
    else none)

/-- Candidate list after the 5' skip stage. -/
def funnel_skip (seq : List Char) (args : DesignArgs) : List Window :=
  skip_5prime_filter (reverse_complement seq).length args (initial_windows seq args)

/-- Candidate list after the optional region-mask stage (applied only when a
non-empty parsed interval list is configured, mirroring the two truthiness
checks of lines 17-19). -/
def funnel_region (seq : List Char) (args : DesignArgs) : List Window :=
  match args.mask_regions with
  | some mi => if mi = [] then funnel_skip seq args
      else region_mask_filter seq.length args mi (funnel_skip seq args)
  | none => funnel_skip seq args

/-- Candidate list after the optional sequence-mask stage (applied whenever a
mask file is configured, even one with no sequences, as at line 28). -/
def funnel_seqmask (seq : List Char) (args : DesignArgs) : List Window :=
  match args.mask_sequences with
  | some ms => seq_mask_filter ms (funnel_region seq args)
  | none => funnel_region seq args

/-- Candidate list after the thermodynamic filter. -/
def funnel_thermo (seq : List Char) (args : DesignArgs) : List Window :=
  thermo_filter args (funnel_seqmask seq args)

/-- Candidate list after the GC-balance split. -/
def funnel_gcbal (seq : List Char) (args : DesignArgs) : List Window :=
  gc_balance_filter args (funnel_thermo seq args)

/-- Candidate list after the melting-temperature filter. -/
def funnel_tm (seq : List Char) (args : DesignArgs) : List Window :=
  tm_filter args (funnel_gcbal seq args)

/-- `prober.generate_thermo_candidates`: the funnel output together with the
ordered audit trail, one entry per executed stage. -/
def generate_thermo_candidates (seq : List Char) (args : DesignArgs) :
    List Window × List (String × ℕ) :=
  (funnel_tm seq args,
   [("initial_windows", (initial_windows seq args).length),
    ("after_5prime_skip", (funnel_skip seq args).length)]
   ++ (match args.mask_regions with
       | some mi => if mi = [] then []
           else [("after_region_mask", (funnel_region seq args).length)]
       | none => [])
   ++ (match args.mask_sequences with
       | some _ => [("after_seq_mask", (funnel_seqmask seq args).length)]
       | none => [])
   ++ [("after_thermo_filter", (funnel_thermo seq args).length),
       ("after_gc_balance_filter", (funnel_gcbal seq args).length),
       ("after_tm_filter", (funnel_tm seq args).length)])

/-- `prober.format_probes_for_blast`: attach stable pair ids and sense
coordinates. -/
def format_probes_for_blast (thermo_candidates : List Window) (gene_name : String)
    (seq : List Char) (args : DesignArgs) : List FormattedProbe :=
  thermo_candidates.enum.map (fun ip =>
    { pair_id := gene_name ++ "_cand_" ++ toString (ip.1 + 1),
      probe_up_target := ip.2.probe_up_target,
      probe_dn_target := ip.2.probe_dn_target,
      start_pos_on_sense := (seq.length : ℤ) - ip.2.start_pos_rev - args.window_size,
      start_pos_rev := ip.2.start_pos_rev })

/-- Formatted candidates handed to the specificity screen by
`main.create_probe_blueprint`. -/
def blueprint_formatted (gene_name : String) (seq : List Char) (args : DesignArgs) :
    List FormattedProbe :=
  format_probes_for_blast (generate_thermo_candidates seq args).1 gene_name seq args

/-- Candidates surviving the specificity screen in the blueprint. -/
def blueprint_specific (gene_name : String) (seq : List Char) (hits : List Hit)
    (args : DesignArgs) : List FormattedProbe :=
  (filter_probes_by_blast (blueprint_formatted gene_name seq args) hits args).1

/-- Candidates selected by the spacing stage in the blueprint. -/
def blueprint_spaced (gene_name : String) (seq : List Char) (hits : List Hit)
    (args : DesignArgs) : List FormattedProbe :=
  select_spatially_diverse_probes (blueprint_specific gene_name seq hits args) args

/-- `main.create_probe_blueprint`: thermo funnel, specificity screen and
spacing selection with the audit trail extended after each stage; the early
returns hand back `none` blueprints exactly as the source does (the Python
`None` report of the first early return is the outer `none`). -/
def create_probe_blueprint (gene_name : String) (seq : List Char) (hits : List Hit)
    (args : DesignArgs) :
    Option (List FormattedProbe) × Option (Option (List Hit)) × List (String × ℕ) :=
  if (generate_thermo_candidates seq args).1 = []
  then (none, none, (generate_thermo_candidates seq args).2)
  else
    if blueprint_specific gene_name seq hits args = []
    then (none, some (filter_probes_by_blast (blueprint_formatted gene_name seq args) hits args).2,
          (generate_thermo_candidates seq args).2
            ++ [("after_blast_filter", (blueprint_specific gene_name seq hits args).length)])
    else (some (blueprint_spaced gene_name seq hits args),
          some (filter_probes_by_blast (blueprint_formatted gene_name seq args) hits args).2,
          (generate_thermo_candidates seq args).2
            ++ [("after_blast_filter", (blueprint_specific gene_name seq hits args).length),
                ("after_spacing_filter", (blueprint_spaced gene_name seq hits args).length)])

theorem filterMap_key_sublist {α β : Type} (f : α → Option α) (key : α → β) (l : List α)
    (hf : ∀ a b, f a = some b → key b = key a) :
    ((l.filterMap f).map key).Sublist (l.map key) := by
  induction l with
  | nil => simp
  | cons a t ih =>
      rw [List.filterMap_cons]
      cases hfa : f a with
      | none => rw [List.map_cons]; exact ih.cons _
      | some b =>
          rw [List.map_cons, List.map_cons, hf a b hfa]
          exact ih.cons₂ _

theorem gc_balance_key_sublist (args : DesignArgs) (ws : List Window) :
    ((gc_balance_filter args ws).map window_key).Sublist (ws.map window_key) := by
  refine filterMap_key_sublist _ window_key ws ?_
  intro a b h
  split at h
  · cases h; rfl
  · cases h

theorem tm_key_sublist (args : DesignArgs) (ws : List Window) :
    ((tm_filter args ws).map window_key).Sublist (ws.map window_key) := by
  refine filterMap_key_sublist _ window_key ws ?_
  intro a b h
  split at h
  · cases h; rfl
  · cases h

theorem funnel_skip_key_sublist (seq : List Char) (args : DesignArgs) :
    ((funnel_skip seq args).map window_key).Sublist
      ((initial_windows seq args).map window_key) :=
  (List.filter_sublist _).map window_key

theorem funnel_region_key_sublist (seq : List Char) (args : DesignArgs) :
    ((funnel_region seq args).map window_key).Sublist
      ((funnel_skip seq args).map window_key) := by
  rcases h : args.mask_regions with - | mi
  · simp only [funnel_region, h]
    exact List.Sublist.refl _
  · simp only [funnel_region, h]
    by_cases hmi : mi = []
    · rw [if_pos hmi]
    · rw [if_neg hmi]
      exact (List.filter_sublist _).map window_key

theorem funnel_seqmask_key_sublist (seq : List Char) (args : DesignArgs) :
    ((funnel_seqmask seq args).map window_key).Sublist
      ((funnel_region seq args).map window_key) := by
  rcases h : args.mask_sequences with - | ms
  · simp only [funnel_seqmask, h]
    exact List.Sublist.refl _
  · simp only [funnel_seqmask, h]
    exact (List.filter_sublist _).map window_key

theorem funnel_thermo_key_sublist (seq : List Char) (args : DesignArgs) :
    ((funnel_thermo seq args).map window_key).Sublist
      ((funnel_seqmask seq args).map window_key) :=
  (List.filter_sublist _).map window_key

theorem funnel_gcbal_key_sublist (seq : List Char) (args : DesignArgs) :
    ((funnel_gcbal seq args).map window_key).Sublist
      ((funnel_thermo seq args).map window_key) :=
  gc_balance_key_sublist args _

theorem funnel_tm_key_sublist (seq : List Char) (args : DesignArgs) :
    ((funnel_tm seq args).map window_key).Sublist
      ((funnel_gcbal seq args).map window_key) :=
  tm_key_sublist args _

theorem initial_windows_starts (seq : List Char) (args : DesignArgs) :
    (initial_windows seq args).map Window.start_pos_rev
      = List.range ((reverse_complement seq).length + 1 - args.window_size) := by
  simp only [initial_windows, List.map_map]
  exact List.map_id _

theorem window_key_snd (l : List Window) :
    (l.map window_key).map Prod.snd = l.map Window.start_pos_rev := by
  rw [List.map_map]
  rfl

theorem format_starts (tc : List Window) (gene_name : String) (seq : List Char)
    (args : DesignArgs) :
    (format_probes_for_blast tc gene_name seq args).map FormattedProbe.start_pos_rev
      = tc.map Window.start_pos_rev := by
  rw [format_probes_for_blast, List.enum_eq_enumFrom]
  suffices h : ∀ (n : ℕ) (l : List Window),
      ((List.enumFrom n l).map (fun ip =>
        ({ pair_id := gene_name ++ "_cand_" ++ toString (ip.1 + 1),
           probe_up_target := ip.2.probe_up_target,
           probe_dn_target := ip.2.probe_dn_target,
           start_pos_on_sense := (seq.length : ℤ) - ip.2.start_pos_rev - args.window_size,
           start_pos_rev := ip.2.start_pos_rev } : FormattedProbe))).map
        FormattedProbe.start_pos_rev = l.map Window.start_pos_rev by
    exact h 0 tc
  intro n l
  induction l generalizing n with
  | nil => rfl
  | cons a t ih =>
      rw [List.enumFrom_cons, List.map_cons, List.map_cons, List.map_cons, ih]

theorem funnel_tm_starts_sorted (seq : List Char) (args : DesignArgs) :
    ((funnel_tm seq args).map Window.start_pos_rev).Pairwise (· < ·) := by
  have hchain : ((funnel_tm seq args).map window_key).Sublist
      ((initial_windows seq args).map window_key) :=
    ((((funnel_tm_key_sublist seq args).trans
      (funnel_gcbal_key_sublist seq args)).trans
      (funnel_thermo_key_sublist seq args)).trans
      (funnel_seqmask_key_sublist seq args)).trans
      ((funnel_region_key_sublist seq args).trans (funnel_skip_key_sublist seq args))
  have hsnd := hchain.map Prod.snd
  rw [window_key_snd, window_key_snd, initial_windows_starts] at hsnd
  exact List.Pairwise.sublist hsnd (List.pairwise_lt_range _)

theorem blueprint_specific_sublist (gene_name : String) (seq : List Char) (hits : List Hit)
    (args : DesignArgs) :
    (blueprint_specific gene_name seq hits args).Sublist
      (blueprint_formatted gene_name seq args) := by
  rw [blueprint_specific, filter_probes_by_blast]
  split
  · exact List.Sublist.refl _
  · rw [specificity_screen]
    split
    · exact List.nil_sublist _
    · exact List.filter_sublist _

theorem blueprint_specific_sorted (gene_name : String) (seq : List Char) (hits : List Hit)
    (args : DesignArgs) :
    (blueprint_specific gene_name seq hits args).Pairwise
      (fun a b => probe_sort_key args a ≤ probe_sort_key args b) := by
  have hfs : (blueprint_formatted gene_name seq args).Pairwise
      (fun a b => a.start_pos_rev ≤ b.start_pos_rev) := by
    have h1 := funnel_tm_starts_sorted seq args
    have h2 : ((blueprint_formatted gene_name seq args).map
        FormattedProbe.start_pos_rev).Pairwise (· < ·) := by
      rw [blueprint_formatted, format_starts]
      exact h1
    exact (List.pairwise_map.mp h2).imp le_of_lt
  have hsp := List.Pairwise.sublist (blueprint_specific_sublist gene_name seq hits args) hfs
  refine hsp.imp ?_
  intro a b h
  unfold probe_sort_key
  omega

theorem select_sublist_of_sorted (P : List FormattedProbe) (args : DesignArgs)
    (hs : P.Pairwise (fun a b => probe_sort_key args a ≤ probe_sort_key args b)) :
    (select_spatially_diverse_probes P args).Sublist P := by
  by_cases hpe : P = []
  · subst hpe
    rw [select_spatially_diverse_probes, if_pos rfl]
  · have hsorted_eq : sorted_probes P args = P := List.Sorted.insertionSort_eq hs
    have hn : (sorted_probes P args).length ≠ 0 := by
      rw [hsorted_eq]
      simpa [List.length_eq_zero] using hpe
    obtain ⟨b, hbe⟩ := best_end_isSome
      ((sorted_probes P args).map FormattedProbe.start_pos_rev)
      (required_footprint args) (sorted_probes P args).length hn
    have hsel : select_spatially_diverse_probes P args
        = ((chain_rev ((sorted_probes P args).map FormattedProbe.start_pos_rev)
            (required_footprint args) b).map
          (fun i => (sorted_probes P args).getD i default)).reverse := by
      rw [select_spatially_diverse_probes, if_neg hpe, hbe]
    rw [hsel]
    have hres := (select_core (sorted_probes P args) args b hbe).1
    rw [hsorted_eq] at hres
    rw [hsorted_eq]
    exact hres

theorem getLast?_append_three {α : Type} (X : List α) (u v w : α) :
    (X ++ [u, v, w]).getLast? = some w := by
  have h : X ++ [u, v, w] = (X ++ [u, v]) ++ [w] := by simp
  rw [h, List.getLast?_concat]

theorem getLast?_append_two {α : Type} (X : List α) (u v : α) :
    (X ++ [u, v]).getLast? = some v := by
  have h : X ++ [u, v] = (X ++ [u]) ++ [v] := by simp
  rw [h, List.getLast?_concat]

/-- C3: every funnel stage's output is a sublist of its input (on the
identity projection of the in-place-mutated candidate records), so the
surviving counts are non-increasing; the funnel result is the last stage's
list and the last audit entry records its length; the specificity screen and
the spacing selector likewise return sublists of their inputs; and after each
blueprint stage the most recently recorded audit count equals the length of
the list handed onward (or the blueprint returns early exactly as the code
does). -/
theorem c3_funnel_monotone (seq : List Char) (args : DesignArgs) (gene_name : String)
    (hits : List Hit) :
    (((funnel_skip seq args).map window_key).Sublist
        ((initial_windows seq args).map window_key)
      ∧ ((funnel_region seq args).map window_key).Sublist
        ((funnel_skip seq args).map window_key)
      ∧ ((funnel_seqmask seq args).map window_key).Sublist
        ((funnel_region seq args).map window_key)
      ∧ ((funnel_thermo seq args).map window_key).Sublist
        ((funnel_seqmask seq args).map window_key)
      ∧ ((funnel_gcbal seq args).map window_key).Sublist
        ((funnel_thermo seq args).map window_key)
      ∧ ((funnel_tm seq args).map window_key).Sublist
        ((funnel_gcbal seq args).map window_key))
    ∧ ((funnel_tm seq args).length ≤ (funnel_gcbal seq args).length
      ∧ (funnel_gcbal seq args).length ≤ (funnel_thermo seq args).length
      ∧ (funnel_thermo seq args).length ≤ (funnel_seqmask seq args).length
      ∧ (funnel_seqmask seq args).length ≤ (funnel_region seq args).length
      ∧ (funnel_region seq args).length ≤ (funnel_skip seq args).length
      ∧ (funnel_skip seq args).length ≤ (initial_windows seq args).length)
    ∧ (generate_thermo_candidates seq args).1 = funnel_tm seq args
    ∧ (generate_thermo_candidates seq args).2.getLast?
        = some ("after_tm_filter", (generate_thermo_candidates seq args).1.length)
    ∧ (blueprint_specific gene_name seq hits args).Sublist
        (blueprint_formatted gene_name seq args)
    ∧ (blueprint_spaced gene_name seq hits args).Sublist
        (blueprint_specific gene_name seq hits args)
    ∧ (blueprint_specific gene_name seq hits args).length
        ≤ (blueprint_formatted gene_name seq args).length
    ∧ (blueprint_spaced gene_name seq hits args).length
        ≤ (blueprint_specific gene_name seq hits args).length
    ∧ ((generate_thermo_candidates seq args).1 = [] →
        create_probe_blueprint gene_name seq hits args
          = (none, none, (generate_thermo_candidates seq args).2))
    ∧ ((generate_thermo_candidates seq args).1 ≠ [] →
        blueprint_specific gene_name seq hits args = [] →
        (create_probe_blueprint gene_name seq hits args).2.2.getLast?
          = some ("after_blast_filter", (blueprint_specific gene_name seq hits args).length))
    ∧ ((generate_thermo_candidates seq args).1 ≠ [] →
        blueprint_specific gene_name seq hits args ≠ [] →
        (create_probe_blueprint gene_name seq hits args).1
            = some (blueprint_spaced gene_name seq hits args)
          ∧ (create_probe_blueprint gene_name seq hits args).2.2.getLast?
              = some ("after_spacing_filter",
                  (blueprint_spaced gene_name seq hits args).length)) := by
  have hlen : ∀ (l1 l2 : List Window), (l1.map window_key).Sublist (l2.map window_key) →
      l1.length ≤ l2.length := by
    intro l1 l2 h
    have := h.length_le
    simpa using this
  refine ⟨⟨funnel_skip_key_sublist seq args, funnel_region_key_sublist seq args,
      funnel_seqmask_key_sublist seq args, funnel_thermo_key_sublist seq args,
      funnel_gcbal_key_sublist seq args, funnel_tm_key_sublist seq args⟩,
    ⟨hlen _ _ (funnel_tm_key_sublist seq args),
      hlen _ _ (funnel_gcbal_key_sublist seq args),
      hlen _ _ (funnel_thermo_key_sublist seq args),
      hlen _ _ (funnel_seqmask_key_sublist seq args),
      hlen _ _ (funnel_region_key_sublist seq args),
      hlen _ _ (funnel_skip_key_sublist seq args)⟩,
    rfl, ?_, blueprint_specific_sublist gene_name seq hits args, ?_,
    (blueprint_specific_sublist gene_name seq hits args).length_le, ?_, ?_, ?_, ?_⟩
  · simp only [generate_thermo_candidates]
    exact getLast?_append_three _ _ _ _
  · exact select_sublist_of_sorted _ args (blueprint_specific_sorted gene_name seq hits args)
  · exact (select_sublist_of_sorted _ args
      (blueprint_specific_sorted gene_name seq hits args)).length_le
  · intro h
    rw [create_probe_blueprint, if_pos h]
  · intro h1 h2
    rw [create_probe_blueprint, if_neg h1, if_pos h2]
    exact List.getLast?_concat _
  · intro h1 h2
    rw [create_probe_blueprint, if_neg h1, if_neg h2]
    exact ⟨rfl, getLast?_append_two _ _ _⟩

theorem c3_funnel_monotone_witness :
    (generate_thermo_candidates [] c2w_args).1 = []
    ∧ create_probe_blueprint "g" [] [] c2w_args
        = (none, none, (generate_thermo_candidates [] c2w_args).2) :=
  ⟨by decide,
   (c3_funnel_monotone [] c2w_args "g" []).2.2.2.2.2.2.2.2.1 (by decide)⟩

/-- One local alignment as consumed by `isoform_analyzer.find_common_regions`
(the fields of a `Bio.pairwise2` alignment that the code reads: score, start
of the aligned region on the reference, and the two gapped sequences). -/
structure LocalAlignment where
  score : ℚ
  start : ℕ
  seqA : List Char
  seqB : List Char
deriving DecidableEq

/-- Coverage walk of lines 62-67: positions of the reference covered by one
alignment (reference characters that are aligned to a non-gap query
character), walking `seqA`/`seqB` in step from `aln.start`. -/
def aln_cov_go : ℕ → List (Char × Char) → List ℕ
  | _, [] => []
  | pos, (a, b) :: rest =>
    if a ≠ '-' then
      (if b ≠ '-' then pos :: aln_cov_go (pos + 1) rest else aln_cov_go (pos + 1) rest)
    else aln_cov_go pos rest

/-- Reference positions covered by one alignment. -/
def aln_covered (aln : LocalAlignment) : List ℕ :=
  aln_cov_go aln.start (aln.seqA.zip aln.seqB)

/-- Line 60: alignments scoring more than `0.8` of the best (first) score;
the float `0.8` is modelled as the exact rational `4/5`. -/
def high_scoring (alns : List LocalAlignment) : List LocalAlignment :=
  alns.filter (fun a =>
    decide ((match alns with | [] => 0 | first :: _ => first.score) * (4 / 5) < a.score))

/-- Lines 61-67: whether one isoform's alignment list covers position `p`. -/
def isoform_covered (alns : List LocalAlignment) (p : ℕ) : Bool :=
  (high_scoring alns).any (fun a => decide (p ∈ aln_covered a))

/-- Line 68: number of isoforms covering position `p` (`coverage_array`). -/
def coverage_count (align_lists : List (List LocalAlignment)) (p : ℕ) : ℕ :=
  (align_lists.filter (fun alns => isoform_covered alns p)).length

/-- Decomposition of a strictly increasing index list into maximal runs of
consecutive integers as half-open intervals, modelling the
`np.diff`/`np.split` step of lines 75-78. -/
def runs_go (s : ℕ) (prev : ℕ) : List ℕ → List (ℕ × ℕ)
  | [] => [(s, prev + 1)]
  | x :: xs => if x = prev + 1 then runs_go s x xs else (s, prev + 1) :: runs_go x x xs

/-- Maximal consecutive runs of an increasing index list. -/
def consecutive_runs : List ℕ → List (ℕ × ℕ)
  | [] => []
  | x :: xs => runs_go x x xs

/-- Reference choice of `find_common_regions` line 44: the first longest
sequence of the group (Python `max` keeps the earliest maximum). -/
def fcr_ref (group : List (String × List Char)) : String × List Char :=
  group.foldl (fun best kv => if best.2.length < kv.2.length then kv else best)
    (group.headD ("", []))

/-- Line 47: the non-reference isoforms. -/
def fcr_others (group : List (String × List Char)) : List (String × List Char) :=
  group.filter (fun kv => decide (kv.1 ≠ (fcr_ref group).1))

/-- Line 54: the alignment lists returned by the collaborator, one per other
isoform. -/
def fcr_aligns (align : List Char → List Char → List LocalAlignment)
    (group : List (String × List Char)) : List (List LocalAlignment) :=
  (fcr_others group).map (fun kv => align (fcr_ref group).2 kv.2)

/-- Line 70: reference positions covered by all other isoforms. -/
def fcr_common (align : List Char → List Char → List LocalAlignment)
    (group : List (String × List Char)) : List ℕ :=
  (List.range (fcr_ref group).2.length).filter
    (fun p => decide (coverage_count (fcr_aligns align group) p = (fcr_others group).length))

/-- Lines 75-80: maximal runs of common positions at least 52 nt long. -/
def fcr_finals (align : List Char → List Char → List LocalAlignment)
    (group : List (String × List Char)) : List (ℕ × ℕ) :=
  (consecutive_runs (fcr_common align group)).filter (fun iv => decide (52 ≤ iv.2 - iv.1))

/-- `isoform_analyzer.find_common_regions`, with the external pairwise
alignment collaborator (`Bio.pairwise2.align.localms`) passed in as a
function.  A single-member group is wholly common; the reference is the
first longest sequence; an isoform with no alignment yields `(ref_id, [])`;
otherwise positions covered by every other isoform are split into runs, runs
shorter than 52 nt are dropped, and the rest merged.  (The empty-group case
raises in Python and is modelled as a default value.) -/
def find_common_regions (align : List Char → List Char → List LocalAlignment)
    (group : List (String × List Char)) : String × List (ℤ × ℤ) :=
  if group.length < 2 then
    match group with
    | [] => ("", [])
    | (i, s) :: _ => (i, [(0, (s.length : ℤ))])
  else
    if (fcr_aligns align group).any (fun a => a.isEmpty) then ((fcr_ref group).1, [])
    else ((fcr_ref group).1,
      merge_intervals ((fcr_finals align group).map (fun iv => ((iv.1 : ℤ), (iv.2 : ℤ)))))

/-- Model of the external collaborator `Bio.pairwise2.align.localms(a, b, 2,
-1, -5, -2)` restricted to identical inputs: for `a = b` the unique optimal
local alignment is the gap-free full-length identity with score `2 * len`. -/
def localms_identity (a b : List Char) : List LocalAlignment :=
  [{ score := 2 * (a.length : ℚ), start := 0, seqA := a, seqB := b }]


theorem aln_cov_go_id (l : List Char) (hnd : '-' ∉ l) :
    ∀ pos, aln_cov_go pos (l.zip l) = List.range' pos l.length := by
  induction l with
  | nil => intro pos; rfl
  | cons c rest ih =>
      intro pos
      have hc : c ≠ '-' := fun h => hnd (by simp [h])
      have hrest : '-' ∉ rest := fun h => hnd (by simp [h])
      show aln_cov_go pos ((c, c) :: rest.zip rest) = List.range' pos (rest.length + 1)
      rw [aln_cov_go, if_pos hc, if_pos hc, ih hrest (pos + 1), List.range'_succ]

theorem runs_go_consecutive (m : ℕ) : ∀ s prev : ℕ,
    runs_go s prev (List.range' (prev + 1) m) = [(s, prev + m + 1)] := by
  induction m with
  | zero => intro s prev; rfl
  | succ m ih =>
      intro s prev
      rw [List.range'_succ, runs_go, if_pos rfl]
      have h2 : prev + 1 + 1 = (prev + 1) + 1 := rfl
      rw [show List.range' (prev + 1 + 1) m = List.range' ((prev + 1) + 1) m from rfl,
        ih s (prev + 1)]
      have heq : prev + 1 + m + 1 = prev + (m + 1) + 1 := by omega
      rw [heq]

theorem consecutive_runs_range (L : ℕ) (h : 0 < L) :
    consecutive_runs (List.range L) = [(0, L)] := by
  obtain ⟨m, rfl⟩ : ∃ m, L = m + 1 := ⟨L - 1, by omega⟩
  rw [List.range_eq_range', List.range'_succ, consecutive_runs]
  have h01 : (0 : ℕ) + 1 = 0 + 1 := rfl
  rw [show List.range' 1 m = List.range' (0 + 1) m from by norm_num,
    runs_go_consecutive m 0 0]
  have heq : 0 + m + 1 = m + 1 := by omega
  rw [heq]

theorem fcr_ref_pair (id1 id2 : String) (s : List Char) :
    fcr_ref [(id1, s), (id2, s)] = (id1, s) := by
  simp [fcr_ref]

theorem fcr_others_pair (id1 id2 : String) (s : List Char) (hid : id1 ≠ id2) :
    fcr_others [(id1, s), (id2, s)] = [(id2, s)] := by
  rw [fcr_others, fcr_ref_pair]
  simp [List.filter, Ne.symm hid]

theorem fcr_aligns_pair (id1 id2 : String) (s : List Char) (hid : id1 ≠ id2) :
    fcr_aligns localms_identity [(id1, s), (id2, s)] = [localms_identity s s] := by
  rw [fcr_aligns, fcr_others_pair id1 id2 s hid, fcr_ref_pair]
  rfl

theorem isoform_covered_identity (s : List Char) (p : ℕ) (h0 : 0 < s.length)
    (hnd : '-' ∉ s) (hp : p < s.length) :
    isoform_covered (localms_identity s s) p = true := by
  have hL : (0 : ℚ) < (s.length : ℚ) := by exact_mod_cast h0
  have hscore : (2 * (s.length : ℚ)) * (4 / 5) < 2 * (s.length : ℚ) := by nlinarith
  have hhs : high_scoring (localms_identity s s) = localms_identity s s := by
    simp only [high_scoring, localms_identity, List.filter_cons, List.filter_nil]
    rw [if_pos (decide_eq_true hscore)]
  rw [isoform_covered, hhs, localms_identity]
  simp only [List.any_cons, List.any_nil, Bool.or_false]
  apply decide_eq_true
  show p ∈ aln_covered _
  rw [aln_covered]
  show p ∈ aln_cov_go 0 (s.zip s)
  rw [aln_cov_go_id s hnd 0]
  rw [List.mem_range'_1]
  omega

theorem fcr_common_identical (id1 id2 : String) (s : List Char) (hid : id1 ≠ id2)
    (h0 : 0 < s.length) (hnd : '-' ∉ s) :
    fcr_common localms_identity [(id1, s), (id2, s)] = List.range s.length := by
  rw [fcr_common, fcr_aligns_pair id1 id2 s hid, fcr_others_pair id1 id2 s hid,
    fcr_ref_pair]
  apply List.filter_eq_self.mpr
  intro p hp
  apply decide_eq_true
  show coverage_count [localms_identity s s] p = ([(id2, s)] : List (String × List Char)).length
  rw [coverage_count]
  simp only [List.filter_cons, List.filter_nil,
    isoform_covered_identity s p h0 hnd (List.mem_range.mp hp)]
  rfl

theorem find_common_identical (s : List Char) (id1 id2 : String)
    (hid : id1 ≠ id2) (h0 : 0 < s.length) (hnd : '-' ∉ s) :
    find_common_regions localms_identity [(id1, s), (id2, s)]
      = (id1, if 52 ≤ s.length then [(0, (s.length : ℤ))] else []) := by
  have h2 : ¬ ([(id1, s), (id2, s)] : List (String × List Char)).length < 2 := by simp
  have hany : ((fcr_aligns localms_identity [(id1, s), (id2, s)]).any
      (fun a => a.isEmpty)) = false := by
    rw [fcr_aligns_pair id1 id2 s hid]
    rfl
  rw [find_common_regions, if_neg h2, hany, if_neg (by simp), fcr_ref_pair]
  have hfinals : fcr_finals localms_identity [(id1, s), (id2, s)]
      = if 52 ≤ s.length then [(0, s.length)] else [] := by
    rw [fcr_finals, fcr_common_identical id1 id2 s hid h0 hnd,
      consecutive_runs_range s.length h0]
    by_cases h52 : 52 ≤ s.length
    · rw [if_pos h52]
      simp only [List.filter_cons, List.filter_nil]
      rw [if_pos (decide_eq_true (by omega : 52 ≤ s.length - 0))]
    · rw [if_neg h52]
      simp only [List.filter_cons, List.filter_nil]
      rw [if_neg (by simpa using (by omega : ¬ 52 ≤ s.length - 0))]
  rw [hfinals]
  by_cases h52 : 52 ≤ s.length
  · rw [if_pos h52, if_pos h52]
    rfl
  · rw [if_neg h52, if_neg h52]
    rfl

/-- C6, counterexample: for two identical isoforms of length 1 the common
run is dropped by the 52 nt minimum-length filter of line 79-80, so the
result is `(ref_id, [])`, not `[(0, len(seq))]` as claimed. -/
theorem c6_counterexample :
    find_common_regions localms_identity [("a", ['A']), ("b", ['A'])]
      ≠ ("a", [(0, (1 : ℤ))]) := by
  rw [find_common_identical ['A'] "a" "b" (by decide) (by decide) (by decide)]
  rw [if_neg (by decide : ¬ (52 ≤ (['A'] : List Char).length))]
  simp

/-- C6 (amended): for a gene group of exactly two identical isoform
sequences of length at least 52 (one probe window), with the alignment
collaborator returning the optimal identity alignment as
`pairwise2.align.localms` does on identical inputs, `find_common_regions`
returns `common_intervals = [(0, len(seq))]`. -/
theorem c6_identical_isoforms (s : List Char) (id1 id2 : String)
    (hid : id1 ≠ id2) (hlen : 52 ≤ s.length) (hnd : '-' ∉ s) :
    find_common_regions localms_identity [(id1, s), (id2, s)]
      = (id1, [(0, (s.length : ℤ))]) := by
  rw [find_common_identical s id1 id2 hid (by omega) hnd, if_pos hlen]

/-- C6 witness input: a 52 nt sequence. -/
def c6_seq : List Char := List.replicate 52 'A'

theorem c6_identical_isoforms_witness :
    (("a" : String) ≠ "b" ∧ 52 ≤ c6_seq.length ∧ '-' ∉ c6_seq)
    ∧ find_common_regions localms_identity [("a", c6_seq), ("b", c6_seq)]
        = ("a", [(0, (c6_seq.length : ℤ))]) :=
  ⟨⟨by decide, by decide, by decide⟩,
   c6_identical_isoforms c6_seq "a" "b" (by decide) (by decide) (by decide)⟩
